import Mathlib

/-!
# Verification of the python_container_system serialization engine

A shallow embedding, in Lean 4, of the core data model and the
serialization/deserialization algorithms of the `container_module`
Python package (value type registry, value variants, the text wire
format codec of `ValueContainer`, and the binary codec of `ValueStore`),
together with proofs and refutations of the specification's claims.

Conventions used throughout:
* Python `str` is modelled as `List Char` (Lean `Char` is a Unicode
  scalar value, as are the code points of a Python `str` that can be
  encoded to UTF-8).
* Python `bytes` is modelled as `List Nat`, each entry < 256.
* Python machine-width packing (`struct.pack`) is modelled with
  explicit little-endian byte lists and explicit range checks, since
  `struct` raises on out-of-range input; arithmetic is on `Int`/`Nat`.
* Fallible Python code (exceptions) is modelled with `Option`/`Except`.
* Floating-point variants (`FloatValue`/`DoubleValue`) are outside the
  model; no claim below depends on float semantics.
-/

namespace ContainerSys

/-! ## value_types.py : the type registry -/

/-- The closed enumeration of value types (`ValueTypes` in
`core/value_types.py`), wire codes 0..15. -/
inductive ValueTypes where
  | NULL_VALUE
  | BOOL_VALUE
  | SHORT_VALUE
  | USHORT_VALUE
  | INT_VALUE
  | UINT_VALUE
  | LONG_VALUE
  | ULONG_VALUE
  | LLONG_VALUE
  | ULLONG_VALUE
  | FLOAT_VALUE
  | DOUBLE_VALUE
  | STRING_VALUE
  | BYTES_VALUE
  | CONTAINER_VALUE
  | ARRAY_VALUE
  deriving DecidableEq, Repr, Fintype

/-- The numeric code of each `ValueTypes` member (its `.value` in Python). -/
def ValueTypes.code : ValueTypes → Nat
  | .NULL_VALUE => 0
  | .BOOL_VALUE => 1
  | .SHORT_VALUE => 2
  | .USHORT_VALUE => 3
  | .INT_VALUE => 4
  | .UINT_VALUE => 5
  | .LONG_VALUE => 6
  | .ULONG_VALUE => 7
  | .LLONG_VALUE => 8
  | .ULLONG_VALUE => 9
  | .FLOAT_VALUE => 10
  | .DOUBLE_VALUE => 11
  | .STRING_VALUE => 12
  | .BYTES_VALUE => 13
  | .CONTAINER_VALUE => 14
  | .ARRAY_VALUE => 15

/-- `_TYPE_MAP` of `core/value_types.py`: string code -> ValueTypes. -/
def TYPE_MAP : List (String × ValueTypes) :=
  [("0", .NULL_VALUE), ("1", .BOOL_VALUE), ("2", .SHORT_VALUE),
   ("3", .USHORT_VALUE), ("4", .INT_VALUE), ("5", .UINT_VALUE),
   ("6", .LONG_VALUE), ("7", .ULONG_VALUE), ("8", .LLONG_VALUE),
   ("9", .ULLONG_VALUE), ("10", .FLOAT_VALUE), ("11", .DOUBLE_VALUE),
   ("12", .STRING_VALUE), ("13", .BYTES_VALUE), ("14", .CONTAINER_VALUE),
   ("15", .ARRAY_VALUE)]

/-- `_REVERSE_TYPE_MAP` of `core/value_types.py`, realised directly:
ValueTypes -> string code. -/
def REVERSE_TYPE_MAP : List (ValueTypes × String) :=
  TYPE_MAP.map (fun p => (p.2, p.1))

/-- `get_type_from_string` (`core/value_types.py`): dictionary lookup with
`NULL_VALUE` as the default for unknown codes. -/
def get_type_from_string (type_str : String) : ValueTypes :=
  (TYPE_MAP.lookup type_str).getD .NULL_VALUE

/-- `get_string_from_type` (`core/value_types.py`): reverse lookup with
`"0"` as the default. -/
def get_string_from_type (value_type : ValueTypes) : String :=
  (REVERSE_TYPE_MAP.lookup value_type).getD "0"

/-- The sixteen registered code strings, `"0"`..`"15"` (the keys of
`_TYPE_MAP`). -/
def typeCodes : List String :=
  ["0", "1", "2", "3", "4", "5", "6", "7", "8", "9", "10", "11", "12",
   "13", "14", "15"]

/-! ## Decimal printing and parsing (Python `str(int)` / `int(str)`) -/

/-- Python whitespace (`str.isspace` / regex `\s` on `str`): ASCII
whitespace, the C0 separators, and the Unicode space characters,
identified by code point. -/
def pySpace (c : Char) : Bool :=
  c.toNat = 0x20 ∨ (0x09 ≤ c.toNat ∧ c.toNat ≤ 0x0d) ∨
  (0x1c ≤ c.toNat ∧ c.toNat ≤ 0x1f) ∨ c.toNat = 0x85 ∨ c.toNat = 0xa0 ∨
  c.toNat = 0x1680 ∨ (0x2000 ≤ c.toNat ∧ c.toNat ≤ 0x200a) ∨
  c.toNat = 0x2028 ∨ c.toNat = 0x2029 ∨ c.toNat = 0x202f ∨
  c.toNat = 0x205f ∨ c.toNat = 0x3000

/-- The character for decimal digit `d` (`d < 10`). -/
def digitChr (d : Nat) : Char := Char.ofNat (48 + d)

/-- Little-endian decimal digits of `n` (fuel-driven so that it reduces
definitionally; `fuel ≥ n` always suffices since `n / 10 < n`). -/
def natDigitsRev : Nat → Nat → List Nat
  | 0, _ => []
  | _ + 1, 0 => []
  | fuel + 1, n => n % 10 :: natDigitsRev fuel (n / 10)

/-- Python `str(n)` for a nonnegative `n`. -/
def natToChars (n : Nat) : List Char :=
  if n = 0 then ['0'] else ((natDigitsRev (n + 1) n).map digitChr).reverse

/-- Python `str(v)` for an `int` value `v`. -/
def intToChars (v : Int) : List Char :=
  if v < 0 then '-' :: natToChars v.natAbs else natToChars v.toNat

/-- Numeric value of a big-endian digit-character list (all characters
already checked to be decimal digits). -/
def decValue (l : List Char) : Nat :=
  l.foldl (fun a c => a * 10 + (c.toNat - 48)) 0

/-- Python `int(s)`: strip whitespace, optional single sign, then a
nonempty run of decimal digits; anything else raises `ValueError`,
modelled as `none`.  (Underscore digit grouping is not modelled; no
input in this development contains underscores.) -/
def pyParseInt (s : List Char) : Option Int :=
  let t := (s.dropWhile pySpace).reverse.dropWhile pySpace |>.reverse
  let core : List Char → Option Int := fun ds =>
    if ds ≠ [] ∧ ds.all (fun c => 48 ≤ c.toNat ∧ c.toNat ≤ 57) then
      some (decValue ds)
    else none
  match t with
  | '-' :: ds => (core ds).map (fun n => -n)
  | '+' :: ds => core ds
  | ds => core ds

/-! ## Fixed-width integer packing (`struct.pack`/`struct.unpack`)

The library commits to little-endian for the range-checked `LONG`/`ULONG`
(`"<i"`/`"<I"`); the remaining integer widths use native packing, which
on the supported platforms (x86-64/arm64) is also little-endian. -/

/-- `width`-byte little-endian bytes of `n` (`n < 2^(8*width)`). -/
def natToLE : Nat → Nat → List Nat
  | 0, _ => []
  | w + 1, n => n % 256 :: natToLE w (n / 256)

/-- Value of a little-endian byte list. -/
def leToNat : List Nat → Nat
  | [] => 0
  | b :: bs => b + 256 * leToNat bs

/-- `struct.pack` of a signed `width`-byte integer: raises
(`none`) when out of range, two's-complement little-endian otherwise. -/
def packSigned (width : Nat) (v : Int) : Option (List Nat) :=
  if -(2 ^ (8 * width - 1) : Int) ≤ v ∧ v < 2 ^ (8 * width - 1) then
    some (natToLE width (v.emod (2 ^ (8 * width))).toNat)
  else none

/-- `struct.pack` of an unsigned `width`-byte integer. -/
def packUnsigned (width : Nat) (v : Int) : Option (List Nat) :=
  if 0 ≤ v ∧ v < 2 ^ (8 * width) then some (natToLE width v.toNat)
  else none

/-- `struct.unpack` of a signed `width`-byte little-endian integer
(requires the exact byte count, as `struct` does). -/
def unpackSigned (width : Nat) (bs : List Nat) : Option Int :=
  if bs.length = width then
    let n := leToNat bs
    some (if n < 2 ^ (8 * width - 1) then (n : Int)
          else (n : Int) - 2 ^ (8 * width))
  else none

/-- `struct.unpack` of an unsigned `width`-byte little-endian integer. -/
def unpackUnsigned (width : Nat) (bs : List Nat) : Option Int :=
  if bs.length = width then some ((leToNat bs : Int)) else none

/-! ## The value variants (`values/*.py`) -/

/-- The eight fixed-width integer variants of `values/numeric_value.py`
(the float variants are outside this model). -/
inductive IntKind where
  | short | ushort | intk | uintk | long | ulong | llong | ullong
  deriving DecidableEq, Repr

/-- Byte width of each integer variant's packing format. -/
def IntKind.width : IntKind → Nat
  | .short => 2 | .ushort => 2
  | .intk => 4 | .uintk => 4
  | .long => 4 | .ulong => 4
  | .llong => 8 | .ullong => 8

/-- Signedness of each integer variant. -/
def IntKind.signed : IntKind → Bool
  | .short => true | .ushort => false
  | .intk => true | .uintk => false
  | .long => true | .ulong => false
  | .llong => true | .ullong => false

/-- The `ValueTypes` tag of each integer variant. -/
def IntKind.vtype : IntKind → ValueTypes
  | .short => .SHORT_VALUE | .ushort => .USHORT_VALUE
  | .intk => .INT_VALUE | .uintk => .UINT_VALUE
  | .long => .LONG_VALUE | .ulong => .ULONG_VALUE
  | .llong => .LLONG_VALUE | .ullong => .ULLONG_VALUE

/-- `struct.pack` with the variant's format character. -/
def IntKind.pack (k : IntKind) (v : Int) : Option (List Nat) :=
  if k.signed then packSigned k.width v else packUnsigned k.width v

/-- `struct.unpack` with the variant's format character. -/
def IntKind.unpack (k : IntKind) (bs : List Nat) : Option Int :=
  if k.signed then unpackSigned k.width bs else unpackUnsigned k.width bs

/-- The values stored by the container system, one constructor per
implemented variant class (floats excluded from the model; see the file
header).  Strings are lists of scalar values, bytes are lists of
naturals below 256. -/
inductive Value where
  | vNull (name : List Char)
  | vBool (name : List Char) (b : Bool)
  | vNum (name : List Char) (k : IntKind) (v : Int)
  | vStr (name : List Char) (s : List Char)
  | vBytes (name : List Char) (data : List Nat)
  | vContainer (name : List Char) (units : List Value)
  | vArray (name : List Char) (values : List Value)
  deriving Repr

instance : Inhabited Value := ⟨.vNull []⟩

/-- `Value.name`. -/
def Value.name : Value → List Char
  | .vNull n | .vBool n _ | .vNum n _ _ | .vStr n _ | .vBytes n _
  | .vContainer n _ | .vArray n _ => n

/-- `Value.type` (the `_type` attribute fixed by each class's
constructor). -/
def Value.vtype : Value → ValueTypes
  | .vNull _ => .NULL_VALUE
  | .vBool _ _ => .BOOL_VALUE
  | .vNum _ k _ => k.vtype
  | .vStr _ _ => .STRING_VALUE
  | .vBytes _ _ => .BYTES_VALUE
  | .vContainer _ _ => .CONTAINER_VALUE
  | .vArray _ _ => .ARRAY_VALUE

/-- Python truthiness of a value object: `BoolValue.__bool__` returns the
stored boolean; `NullValue.__bool__` returns `False`; `StringValue`,
`BytesValue`, `ContainerValue` and `ArrayValue` define `__len__`, so they
are falsy when empty; the numeric classes define neither, so they are
always truthy.  (`ValueContainer._deserialize_values` and
`ValueStore.deserialize_binary` keep a parsed value only `if value:`.) -/
def Value.pyTruthy : Value → Bool
  | .vNull _ => false
  | .vBool _ b => b
  | .vNum _ _ _ => true
  | .vStr _ s => !s.isEmpty
  | .vBytes _ d => !d.isEmpty
  | .vContainer _ us => !us.isEmpty
  | .vArray _ vs => !vs.isEmpty

/-! ## Text wire serialization of values (`serialize()` methods) -/

/-- The wire code characters of a type tag,
`get_string_from_type(self._type)`. -/
def typeCodeChars (t : ValueTypes) : List Char :=
  (get_string_from_type t).data

/-- `StringValue.serialize` escaping: `value.replace("];", "\\];")`,
Python's left-to-right non-overlapping replacement. -/
def escapeBrackets : List Char → List Char
  | ']' :: ';' :: t => '\\' :: ']' :: ';' :: escapeBrackets t
  | c :: t => c :: escapeBrackets t
  | [] => []

/-- The base64 alphabet character at index `n < 64`. -/
def b64Chr (n : Nat) : Char :=
  ("ABCDEFGHIJKLMNOPQRSTUVWXYZabcdefghijklmnopqrstuvwxyz0123456789+/".data).getD n 'A'

/-- `base64.b64encode` (used by `BytesValue.serialize`/`to_base64`). -/
def b64Encode : List Nat → List Char
  | a :: b :: c :: rest =>
      b64Chr (a / 4) :: b64Chr ((a % 4) * 16 + b / 16) ::
      b64Chr ((b % 16) * 4 + c / 64) :: b64Chr (c % 64) :: b64Encode rest
  | [a, b] =>
      [b64Chr (a / 4), b64Chr ((a % 4) * 16 + b / 16), b64Chr ((b % 16) * 4), '=']
  | [a] => [b64Chr (a / 4), b64Chr ((a % 4) * 16), '=', '=']
  | [] => []

/-- Index of a character in the base64 alphabet. -/
def b64Index (c : Char) : Option Nat :=
  let l := "ABCDEFGHIJKLMNOPQRSTUVWXYZabcdefghijklmnopqrstuvwxyz0123456789+/".data
  let i := l.indexOf c
  if i < 64 then some i else none

/-- `base64.b64decode` with the default `validate=False`: characters
outside the alphabet (and `=`) are discarded, the remaining length must
be a multiple of four, and the final quad may carry one or two padding
characters. -/
def b64Decode (s : List Char) : Option (List Nat) :=
  let rec quads : List Char → Option (List Nat)
    | [] => some []
    | [a, b, '=', '='] => do
        let x ← b64Index a
        let y ← b64Index b
        pure [x * 4 + y / 16]
    | [a, b, c, '='] => do
        let x ← b64Index a
        let y ← b64Index b
        let z ← b64Index c
        pure [x * 4 + y / 16, (y % 16) * 16 + z / 4]
    | a :: b :: c :: d :: rest => do
        let x ← b64Index a
        let y ← b64Index b
        let z ← b64Index c
        let w ← b64Index d
        let tl ← quads rest
        pure ([x * 4 + y / 16, (y % 16) * 16 + z / 4, (z % 4) * 64 + w] ++ tl)
    | _ => none
  quads (s.filter (fun c => (b64Index c).isSome ∨ c = '='))

/-!
`serialize()` of each value class, producing the text wire fragment.

* `NullValue.serialize`: `[name,0,null];`
* `BoolValue.serialize`: `[name,1,true|false];`
* `NumericValue.serialize`: `[name,code,str(value)];`
* `StringValue.serialize`: `[name,12,escaped];`
* `BytesValue.serialize`: `[name,13,base64];`
* `ContainerValue.serialize`: `[name,14,];` — note the *empty* value
  field (the child count is **not** emitted) — followed by the children.
* `ArrayValue.serialize`: `[name,15,count];` followed by the elements.
-/
mutual

def serializeValue : Value → List Char
  | .vNull n => '[' :: n ++ ',' :: typeCodeChars .NULL_VALUE ++
      ',' :: "null".data ++ [']', ';']
  | .vBool n b => '[' :: n ++ ',' :: typeCodeChars .BOOL_VALUE ++
      ',' :: (if b then "true".data else "false".data) ++ [']', ';']
  | .vNum n k v => '[' :: n ++ ',' :: typeCodeChars k.vtype ++
      ',' :: intToChars v ++ [']', ';']
  | .vStr n s => '[' :: n ++ ',' :: typeCodeChars .STRING_VALUE ++
      ',' :: escapeBrackets s ++ [']', ';']
  | .vBytes n d => '[' :: n ++ ',' :: typeCodeChars .BYTES_VALUE ++
      ',' :: b64Encode d ++ [']', ';']
  | .vContainer n us => '[' :: n ++ ',' :: typeCodeChars .CONTAINER_VALUE ++
      ',' :: [']', ';'] ++ serializeValues us
  | .vArray n vs => '[' :: n ++ ',' :: typeCodeChars .ARRAY_VALUE ++
      ',' :: natToChars vs.length ++ [']', ';'] ++ serializeValues vs

def serializeValues : List Value → List Char
  | [] => []
  | u :: us => serializeValue u ++ serializeValues us

end

/-! ## The text wire-format scanners of `ValueContainer.deserialize`

`deserialize` locates its blocks with `re.search` and splits items with
`re.finditer`.  The patterns involved are deterministic (character
classes disjoint from the literals that follow them), so each one is
modelled by a hand-rolled scanner with exactly the leftmost-match
semantics of the `re` module:

* `@header=\s*\{\{(.*?)\}\}` — lazy content, `.` does not match `\n`;
* `@data=\s*\{\{?(.*?)\}\}?;` — greedy optional braces;
* header items `\[([^,]+),\s*([^\]]*)\];`;
* data items `\[([^,]+),\s*([^,]+),\s*(.*?)\];`.
-/

/-- Consume the literal `pat` from the front of `l`. -/
def dropLit : List Char → List Char → Option (List Char)
  | [], l => some l
  | p :: ps, c :: cs => if c = p then dropLit ps cs else none
  | _ :: _, [] => none

/-- Lazy `(.*?)\}\}`: content up to the first `}}`, failing if a newline
intervenes (`.` does not match `\n`). -/
def lazyToBraces : List Char → Option (List Char)
  | '}' :: '}' :: _ => some []
  | c :: t => if c = '\n' then none else (lazyToBraces t).map (c :: ·)
  | [] => none

/-- One attempt of the header pattern at the current position. -/
def matchHeaderAt (l : List Char) : Option (List Char) :=
  (dropLit "@header=".data l).bind fun r =>
    (dropLit "\x7b\x7b".data (r.dropWhile pySpace)).bind lazyToBraces

/-- `re.search` of the header pattern: try every position left to
right. -/
def searchHeader : List Char → Option (List Char)
  | [] => none
  | c :: t =>
    match matchHeaderAt (c :: t) with
    | some x => some x
    | none => searchHeader t

/-- Lazy `(.*?)\}\}?;`: content up to the first `}};` or `};` (the
optional second brace is greedy), failing on a newline. -/
def lazyToDataEnd : List Char → Option (List Char)
  | '}' :: '}' :: ';' :: _ => some []
  | '}' :: ';' :: _ => some []
  | c :: t => if c = '\n' then none else (lazyToDataEnd t).map (c :: ·)
  | [] => none

/-- One attempt of the data pattern at the current position (`\{\{?` is
greedy: two braces are preferred, with backtracking to one). -/
def matchDataAt (l : List Char) : Option (List Char) :=
  (dropLit "@data=".data l).bind fun r =>
    match r.dropWhile pySpace with
    | '{' :: '{' :: t => (lazyToDataEnd t).orElse fun _ => lazyToDataEnd ('{' :: t)
    | '{' :: t => lazyToDataEnd t
    | _ => none

/-- `re.search` of the data pattern. -/
def searchData : List Char → Option (List Char)
  | [] => none
  | c :: t =>
    match matchDataAt (c :: t) with
    | some x => some x
    | none => searchData t

/-- One attempt of the header item pattern `\[([^,]+),\s*([^\]]*)\];`. -/
def matchHeaderItem (l : List Char) : Option ((List Char × List Char) × List Char) :=
  match l with
  | '[' :: r =>
    let k := r.takeWhile (· ≠ ',')
    if k.isEmpty then none
    else
      match r.dropWhile (· ≠ ',') with
      | ',' :: r2 =>
        let r3 := r2.dropWhile pySpace
        let v := r3.takeWhile (· ≠ ']')
        match r3.dropWhile (· ≠ ']') with
        | ']' :: ';' :: rest => some ((k, v), rest)
        | _ => none
      | _ => none
  | _ => none

/-- `re.finditer` of the header item pattern: leftmost, non-overlapping
(fuel-driven; `fuel ≥ length + 1` always suffices since every step
consumes at least one character). -/
def headerFindItems : Nat → List Char → List (List Char × List Char)
  | 0, _ => []
  | _, [] => []
  | fuel + 1, c :: t =>
    match matchHeaderItem (c :: t) with
    | some (kv, rest) => kv :: headerFindItems fuel rest
    | none => headerFindItems fuel t

/-- Lazy `(.*?)\];`: content up to the first `];`, failing on a newline;
returns the content and the remainder after the `];`. -/
def lazyToCloseBracket : List Char → Option (List Char × List Char)
  | ']' :: ';' :: t => some ([], t)
  | c :: t => if c = '\n' then none else (lazyToCloseBracket t).map (fun p => (c :: p.1, p.2))
  | [] => none

/-- One attempt of the data item pattern
`\[([^,]+),\s*([^,]+),\s*(.*?)\];`. -/
def matchValueItem (l : List Char) :
    Option ((List Char × List Char × List Char) × List Char) :=
  match l with
  | '[' :: r =>
    let n := r.takeWhile (· ≠ ',')
    if n.isEmpty then none
    else
      match r.dropWhile (· ≠ ',') with
      | ',' :: r2 =>
        let r3 := r2.dropWhile pySpace
        let ty := r3.takeWhile (· ≠ ',')
        if ty.isEmpty then none
        else
          match r3.dropWhile (· ≠ ',') with
          | ',' :: r4 =>
            (lazyToCloseBracket (r4.dropWhile pySpace)).map
              (fun p => ((n, ty, p.1), p.2))
          | _ => none
      | _ => none
  | _ => none

/-- `re.finditer` of the data item pattern. -/
def valueFindItems : Nat → List Char → List (List Char × List Char × List Char)
  | 0, _ => []
  | _, [] => []
  | fuel + 1, c :: t =>
    match matchValueItem (c :: t) with
    | some (tup, rest) => tup :: valueFindItems fuel rest
    | none => valueFindItems fuel t

/-- `data_part.replace("\\];", "__ESCAPED_SEMICOLON_BRACKET__")`
(Python's left-to-right, non-overlapping `str.replace`). -/
def replaceEscToken : List Char → List Char
  | '\\' :: ']' :: ';' :: t =>
    "__ESCAPED_SEMICOLON_BRACKET__".data ++ replaceEscToken t
  | c :: t => c :: replaceEscToken t
  | [] => []

/-- `group3.replace("__ESCAPED_SEMICOLON_BRACKET__", "];")`, Python's
left-to-right, non-overlapping replacement: at each position the scanner
either recognises the whole 29-character token (one `dropLit` test) and
emits `];`, or copies one character.  One unit of fuel per position, so
the input length suffices. -/
def restoreTokenF : Nat → List Char → List Char
  | 0, l => l
  | fuel + 1, l =>
    match dropLit "__ESCAPED_SEMICOLON_BRACKET__".data l with
    | some rest => ']' :: ';' :: restoreTokenF fuel rest
    | none =>
      match l with
      | [] => []
      | c :: t => c :: restoreTokenF fuel t

def restoreToken (l : List Char) : List Char := restoreTokenF l.length l

/-! ## Value reconstruction (`_create_value`, `_parse_value_recursive`) -/

/-- Python `str.lower()` (ASCII case folding suffices for the inputs of
`BoolValue.from_string`). -/
def pyLower (s : List Char) : List Char := s.map Char.toLower

/-- `BoolValue.from_string`: `value_str.lower() in ("true", "1", "yes",
"on")`. -/
def boolFromString (s : List Char) : Bool :=
  pyLower s = "true".data ∨ pyLower s = "1".data ∨ pyLower s = "yes".data ∨
  pyLower s = "on".data

/-- A numeric class constructor `cls(name, value)`: `struct.pack`s the
value in `__init__`, raising on out-of-range input.  For
`LongValue`/`ULongValue` the explicit `OverflowError` range checks
(`[-2^31, 2^31-1]` resp. `[0, 2^32-1]`) coincide exactly with the
ranges accepted by their `"<i"`/`"<I"` pack formats, so one range test
models both. -/
def mkNum (k : IntKind) (n : List Char) (v : Int) : Option Value :=
  (k.pack v).map fun _ => Value.vNum n k v

/-- A numeric `from_string`: `int(value_str)` followed by the class
constructor. -/
def numFromString (k : IntKind) (n : List Char) (s : List Char) : Option Value :=
  (pyParseInt s).bind (mkNum k n)

/-- A numeric `from_data`: `struct.unpack` with the class format (exact
length required) followed by the class constructor. -/
def numFromData (k : IntKind) (n : List Char) (bs : List Nat) : Option Value :=
  (k.unpack bs).bind (mkNum k n)

/-- `ValueContainer._create_value`: dispatch on the type tag to the
variant's `from_string`, `None` (and a swallowed exception) otherwise.
There is no branch for `NULL_VALUE`, `CONTAINER_VALUE` or `ARRAY_VALUE`:
those tags yield `None`.  The `FLOAT_VALUE`/`DOUBLE_VALUE` branches
construct float values, which are outside this model; no claim below
evaluates them. -/
def createValue (n : List Char) (t : ValueTypes) (s : List Char) : Option Value :=
  match t with
  | .BOOL_VALUE => some (.vBool n (boolFromString s))
  | .SHORT_VALUE => numFromString .short n s
  | .USHORT_VALUE => numFromString .ushort n s
  | .INT_VALUE => numFromString .intk n s
  | .UINT_VALUE => numFromString .uintk n s
  | .LONG_VALUE => numFromString .long n s
  | .ULONG_VALUE => numFromString .ulong n s
  | .LLONG_VALUE => numFromString .llong n s
  | .ULLONG_VALUE => numFromString .ullong n s
  | .STRING_VALUE => some (.vStr n s)
  | .BYTES_VALUE => (b64Decode s).map (.vBytes n)
  | _ => none

/-- A parsed `[name,type,value]` tuple. -/
abbrev WireTup := List Char × List Char × List Char

/-- The child count read by `_parse_value_recursive` for a CONTAINER
tuple: `int(value_str) if value_str.strip() else 0`, with a swallowed
`ValueError` also giving 0; a negative count iterates zero times. -/
def containerChildCount (s : List Char) : Nat :=
  if (s.filter (fun c => !pySpace c)).isEmpty then 0
  else ((pyParseInt s).getD 0).toNat

mutual

/-- `_parse_value_recursive` on the tuple at the cursor, given the
tuples after it; returns the parsed value (or `None`) and the tuples
remaining after its subtree.  Fuel-driven rendering of the shared
mutable cursor; `fuel ≥ 2 * length + 2` always suffices. -/
def parseOneTup : Nat → WireTup → List WireTup → Option Value × List WireTup
  | 0, _, rest => (none, rest)
  | fuel + 1, (n, tys, vs), rest =>
    let ty := get_type_from_string (String.mk tys)
    if ty = .CONTAINER_VALUE then
      let (cs, rest') := parseChildren fuel (containerChildCount vs) rest
      (some (.vContainer n cs), rest')
    else
      (createValue n ty vs, rest)

/-- The `for _ in range(child_count)` loop of `_parse_value_recursive`:
each iteration advances the cursor and, when a tuple is present, parses
it recursively, appending the child only `if child_val:` (Python
truthiness). -/
def parseChildren : Nat → Nat → List WireTup → List Value × List WireTup
  | _, 0, l => ([], l)
  | _, _ + 1, [] => ([], [])
  | 0, _, l => ([], l)
  | fuel + 1, cnt + 1, t :: rest =>
    let (v?, rest') := parseOneTup fuel t rest
    let (vs, rest'') := parseChildren fuel cnt rest'
    (match v? with
     | some v => if v.pyTruthy then v :: vs else vs
     | none => vs, rest'')

end

/-- The `while index_ref[0] < len(matches)` loop of
`_deserialize_values`: parse every top-level tuple, keeping a value only
`if value:`. -/
def parseUnits : Nat → List WireTup → List Value
  | 0, _ => []
  | _, [] => []
  | fuel + 1, t :: rest =>
    let (v?, rest') := parseOneTup fuel t rest
    (match v? with
     | some v => if v.pyTruthy then [v] else []
     | none => []) ++ parseUnits fuel rest'

/-- `ValueContainer._deserialize_values`: clear the units, return if the
data part is empty or whitespace, protect the escape token, split into
tuples with the data item pattern, restore the token in each value
field, and run the recursive-descent consumer. -/
def deserializeValues (dataPart : List Char) : List Value :=
  if (dataPart.filter (fun c => !pySpace c)).isEmpty then []
  else
    let safe := replaceEscToken dataPart
    let tuples := (valueFindItems (safe.length + 1) safe).map
      (fun t => (t.1, t.2.1, restoreToken t.2.2))
    parseUnits (2 * tuples.length + 2) tuples

/-! ## `ValueContainer` (`core/container.py`) -/

/-- The mutable state of a `ValueContainer` (lock and statistics fields,
which no claim concerns, are not modelled). -/
structure ContainerState where
  source_id : List Char
  source_sub_id : List Char
  target_id : List Char
  target_sub_id : List Char
  message_type : List Char
  version : List Char
  units : List Value
  parsed_data : Bool
  changed_data : Bool
  data_string : List Char
  deriving Repr

/-- `ValueContainer.DEFAULT_MESSAGE_TYPE`. -/
def DEFAULT_MESSAGE_TYPE : List Char := "data_container".data

/-- `ValueContainer.DEFAULT_VERSION`. -/
def DEFAULT_VERSION : List Char := "1.0.0.0".data

/-- A freshly constructed `ValueContainer()` (no deserialization
input; an empty `message_type` argument falls back to the default). -/
def ContainerState.init : ContainerState where
  source_id := []
  source_sub_id := []
  target_id := []
  target_sub_id := []
  message_type := DEFAULT_MESSAGE_TYPE
  version := DEFAULT_VERSION
  units := []
  parsed_data := true
  changed_data := false
  data_string := []

/-- The string built by `ValueContainer.serialize` when the cache is not
used: all six header fields in fixed order under their numeric IDs
(1=target, 2=target_sub, 3=source, 4=source_sub, 5=message_type,
6=version), then every unit's fragment in insertion order. -/
def serializeContent (st : ContainerState) : List Char :=
  "@header=\x7b\x7b".data ++
    ('[' :: '1' :: ',' :: st.target_id ++ [']', ';']) ++
    ('[' :: '2' :: ',' :: st.target_sub_id ++ [']', ';']) ++
    ('[' :: '3' :: ',' :: st.source_id ++ [']', ';']) ++
    ('[' :: '4' :: ',' :: st.source_sub_id ++ [']', ';']) ++
    ('[' :: '5' :: ',' :: st.message_type ++ [']', ';']) ++
    ('[' :: '6' :: ',' :: st.version ++ [']', ';']) ++
  "\x7d\x7d".data ++
  "@data=\x7b\x7b".data ++ serializeValues st.units ++ "\x7d\x7d;".data

/-- `ValueContainer.serialize`: return the cached string whenever no
mutation has occurred since the last serialization and a cached string
exists; otherwise rebuild, cache, and clear the dirty flag. -/
def ContainerState.serialize (st : ContainerState) : List Char × ContainerState :=
  if !st.changed_data && !st.data_string.isEmpty then (st.data_string, st)
  else
    let r := serializeContent st
    (r, { st with data_string := r, changed_data := false })

/-- `ValueContainer._update_data_string`. -/
def ContainerState.updateDataString (st : ContainerState) : ContainerState :=
  let (r, st') := ContainerState.serialize st
  { st' with data_string := r, changed_data := false }

/-- `ValueContainer.add` (parent pointers are not modelled; the
`update_immediately` argument defaults to `False` in Python). -/
def ContainerState.add (st : ContainerState) (v : Value)
    (updateImmediately : Bool := false) : ContainerState :=
  let st' := { st with units := st.units ++ [v], changed_data := true }
  if updateImmediately then st'.updateDataString else st'

/-- `ValueContainer.remove` by name. -/
def ContainerState.removeByName (st : ContainerState) (n : List Char)
    (updateImmediately : Bool := false) : ContainerState :=
  let st' := { st with
    units := st.units.filter (fun v => v.name ≠ n)
    changed_data := true }
  if updateImmediately then st'.updateDataString else st'

/-- `ValueContainer.set_units`. -/
def ContainerState.setUnits (st : ContainerState) (vs : List Value)
    (updateImmediately : Bool := false) : ContainerState :=
  let st' := { st with units := vs, changed_data := true }
  if updateImmediately then st'.updateDataString else st'

/-- `ValueContainer.clear_value`. -/
def ContainerState.clearValue (st : ContainerState) : ContainerState :=
  { st with units := [], changed_data := true }

/-- `ValueContainer.set_source`. -/
def ContainerState.setSource (st : ContainerState) (sid ssid : List Char) :
    ContainerState :=
  { st with source_id := sid, source_sub_id := ssid, changed_data := true }

/-- `ValueContainer.set_target`. -/
def ContainerState.setTarget (st : ContainerState) (tid tsid : List Char) :
    ContainerState :=
  { st with target_id := tid, target_sub_id := tsid, changed_data := true }

/-- `ValueContainer.set_message_type`. -/
def ContainerState.setMessageType (st : ContainerState) (mt : List Char) :
    ContainerState :=
  { st with message_type := mt, changed_data := true }

/-- `ValueContainer.swap_header`. -/
def ContainerState.swapHeader (st : ContainerState) : ContainerState :=
  { st with
    source_id := st.target_id
    target_id := st.source_id
    source_sub_id := st.target_sub_id
    target_sub_id := st.source_sub_id
    changed_data := true }

/-- Python `dict` built from the header items then `dict.get`: with
duplicate keys the later assignment wins. -/
def fieldsGet (items : List (List Char × List Char)) (key : List Char) :
    Option (List Char) :=
  (items.reverse.find? (fun p => p.1 = key)).map (·.2)

/-- `dict.get(numeric_id, dict.get(legacy_key, default))`. -/
def headerField (items : List (List Char × List Char))
    (numKey legacyKey dflt : List Char) : List Char :=
  (fieldsGet items numKey).getD ((fieldsGet items legacyKey).getD dflt)

/-- `ValueContainer.deserialize`:  cache the raw input, locate the
header block (returning `False` without touching anything else when it
is absent), populate the six header fields from the item dictionary
(numeric IDs first, legacy string keys as fallback), then, unless
`parse_only_header`, locate the data block and rebuild the units. -/
def ContainerState.deserialize (st : ContainerState) (s : List Char)
    (parseOnlyHeader : Bool := true) : Bool × ContainerState :=
  let st0 := { st with data_string := s }
  match searchHeader s with
  | none => (false, st0)
  | some hc =>
    let items := headerFindItems (hc.length + 1) hc
    let st1 := { st0 with
      target_id := headerField items "1".data "target_id".data []
      target_sub_id := headerField items "2".data "target_sub_id".data []
      source_id := headerField items "3".data "source_id".data []
      source_sub_id := headerField items "4".data "source_sub_id".data []
      message_type := headerField items "5".data "message_type".data
        DEFAULT_MESSAGE_TYPE
      version := headerField items "6".data "version".data DEFAULT_VERSION }
    if parseOnlyHeader then
      (true, { st1 with parsed_data := false, changed_data := false })
    else
      match searchData s with
      | some dc =>
        (true, { st1 with
          units := deserializeValues dc
          parsed_data := true
          changed_data := false })
      | none =>
        (true, { st1 with parsed_data := true, changed_data := false })

/-! ## `ContainerValue.from_data` / `from_string`
(`values/container_value.py`) -/

/-- `ContainerValue.from_data`: "This would need proper deserialization
logic.  For now, create empty container." — the payload is ignored. -/
def containerValueFromData (name : List Char) (_data : List Nat) : Value :=
  .vContainer name []

/-- `ContainerValue.from_string`: likewise ignores its payload. -/
def containerValueFromString (name : List Char) (_valueStr : List Char) : Value :=
  .vContainer name []

/-! ## Narrowing accessors (`core/value.py` and variant overrides)

Each accessor dispatches to a subclass override when the class defines
one, and otherwise to `Value._safe_convert`, which raises `ValueError`
iff the value's type is `NULL_VALUE` and returns the default otherwise.
The float-returning accessors are modelled with a `Unit` payload (only
raising behaviour is in scope; floating point is not modelled). -/

/-- `Value._safe_convert(type_name, default)`. -/
def safeConvert {α : Type} (v : Value) (dflt : α) : Except String α :=
  if v.vtype = .NULL_VALUE then .error "Cannot convert null_value" else .ok dflt

/-- `to_boolean`: overridden by `BoolValue` (stored flag) and
`StringValue` (non-emptiness). -/
def toBoolean : Value → Except String Bool
  | .vBool _ b => .ok b
  | .vStr _ s => .ok (!s.isEmpty)
  | v => safeConvert v false

/-- `to_short`: overridden only by `ShortValue`. -/
def toShort : Value → Except String Int
  | .vNum _ .short v => .ok v
  | v => safeConvert v 0

/-- `to_ushort`: overridden only by `UShortValue`. -/
def toUshort : Value → Except String Int
  | .vNum _ .ushort v => .ok v
  | v => safeConvert v 0

/-- `to_int`: overridden by `NumericValue` (all eight integer variants),
`BoolValue` (0/1) and `StringValue` (`int(...)` with fallback 0). -/
def toInt : Value → Except String Int
  | .vNum _ _ v => .ok v
  | .vBool _ b => .ok (if b then 1 else 0)
  | .vStr _ s => .ok ((pyParseInt s).getD 0)
  | v => safeConvert v 0

/-- `to_uint`: overridden only by `UIntValue`. -/
def toUint : Value → Except String Int
  | .vNum _ .uintk v => .ok v
  | v => safeConvert v 0

/-- `to_long`: overridden only by `LongValue`. -/
def toLong : Value → Except String Int
  | .vNum _ .long v => .ok v
  | v => safeConvert v 0

/-- `to_ulong`: overridden only by `ULongValue`. -/
def toUlong : Value → Except String Int
  | .vNum _ .ulong v => .ok v
  | v => safeConvert v 0

/-- `to_llong`: overridden only by `LLongValue`. -/
def toLlong : Value → Except String Int
  | .vNum _ .llong v => .ok v
  | v => safeConvert v 0

/-- `to_ullong`: overridden only by `ULLongValue`. -/
def toUllong : Value → Except String Int
  | .vNum _ .ullong v => .ok v
  | v => safeConvert v 0

/-- `to_float`: overridden by `NumericValue` and `StringValue` (both
never raise; float payloads abstracted to `Unit`). -/
def toFloat : Value → Except String Unit
  | .vNum _ _ _ => .ok ()
  | .vStr _ _ => .ok ()
  | v => safeConvert v ()

/-- `to_double`: overridden by `NumericValue` only. -/
def toDouble : Value → Except String Unit
  | .vNum _ _ _ => .ok ()
  | v => safeConvert v ()

/-! ## UTF-8 (`str.encode("utf-8")` / `bytes.decode("utf-8")`) -/

/-- UTF-8 encoding of one scalar value. -/
def utf8EncodeChar (c : Char) : List Nat :=
  let n := c.toNat
  if n < 0x80 then [n]
  else if n < 0x800 then [0xC0 + n / 64, 0x80 + n % 64]
  else if n < 0x10000 then
    [0xE0 + n / 4096, 0x80 + (n / 64) % 64, 0x80 + n % 64]
  else
    [0xF0 + n / 262144, 0x80 + (n / 4096) % 64, 0x80 + (n / 64) % 64,
     0x80 + n % 64]

/-- `str.encode("utf-8")`. -/
def utf8Encode (s : List Char) : List Nat :=
  (s.map utf8EncodeChar).flatten

/-- A UTF-8 continuation byte. -/
def utf8Cont (b : Nat) : Bool := 0x80 ≤ b ∧ b < 0xC0

/-- `bytes.decode("utf-8")` with the default strict error handling:
`none` on any malformed, overlong, surrogate or out-of-range sequence. -/
def utf8Decode : List Nat → Option (List Char)
  | [] => some []
  | b :: t =>
    if b < 0x80 then (utf8Decode t).map (Char.ofNat b :: ·)
    else
      match t with
      | b1 :: t1 =>
        if b < 0xC2 then none
        else if b < 0xE0 then
          if utf8Cont b1 then
            (utf8Decode t1).map (Char.ofNat ((b - 0xC0) * 64 + (b1 - 0x80)) :: ·)
          else none
        else
          match t1 with
          | b2 :: t2 =>
            if b < 0xF0 then
              let n := (b - 0xE0) * 4096 + (b1 - 0x80) * 64 + (b2 - 0x80)
              if utf8Cont b1 ∧ utf8Cont b2 ∧ 0x800 ≤ n ∧
                  ¬(0xD800 ≤ n ∧ n < 0xE000) then
                (utf8Decode t2).map (Char.ofNat n :: ·)
              else none
            else
              match t2 with
              | b3 :: t3 =>
                if b < 0xF5 then
                  let n := (b - 0xF0) * 262144 + (b1 - 0x80) * 4096 +
                    (b2 - 0x80) * 64 + (b3 - 0x80)
                  if utf8Cont b1 ∧ utf8Cont b2 ∧ utf8Cont b3 ∧
                      0x10000 ≤ n ∧ n < 0x110000 then
                    (utf8Decode t3).map (Char.ofNat n :: ·)
                  else none
                else none
              | [] => none
          | [] => none
      | [] => none

/-! ## `ValueStore` binary codec (`core/value_store.py`) -/

/-- The `_data` byte payload each value class stores at construction
(`Value.data`): packed bytes for numerics, `struct.pack("?")` for bool,
UTF-8 for strings, the raw payload for bytes, and empty for
null/container/array. -/
def Value.dataBytes : Value → List Nat
  | .vNull _ => []
  | .vBool _ b => [if b then 1 else 0]
  | .vNum _ k v => (k.pack v).getD []
  | .vStr _ s => utf8Encode s
  | .vBytes _ d => d
  | .vContainer _ _ => []
  | .vArray _ _ => []

/-- `ValueStore.BINARY_VERSION`. -/
def BINARY_VERSION : Nat := 1

/-- A `ValueStore`, modelled as its insertion-ordered key/value entries
(`dict` preserves insertion order; keys are unique). -/
abbrev StoreEntries := List (List Char × Value)

/-- One serialized entry:
`[key_len:u32][key:utf8][type:u8][value_len:u32][value]`. -/
def entryBytes (e : List Char × Value) : List Nat :=
  let kb := utf8Encode e.1
  let vb := e.2.dataBytes
  natToLE 4 kb.length ++ kb ++ e.2.vtype.code :: natToLE 4 vb.length ++ vb

/-- `ValueStore.serialize_binary`:
`[version:1][count:u32][entries...]`, little-endian. -/
def serializeBinary (s : StoreEntries) : List Nat :=
  BINARY_VERSION :: natToLE 4 s.length ++ (s.map entryBytes).flatten

/-- `ValueTypes(code)`: the enum constructor, raising `ValueError` on an
unknown code. -/
def valueTypeOfCode (c : Nat) : Option ValueTypes :=
  (TYPE_MAP.map Prod.snd).find? (fun t => t.code = c)

/-- A value reconstructed by the binary decoder.
`_create_value_from_binary` rebuilds every scalar class, including
`FloatValue`/`DoubleValue` (value_store.py:520-523); the float classes
store IEEE numbers, which this development does not interpret, so a
decoded float is kept as a dedicated constructor carrying the tag width
and the raw packed payload, opaque to every other definition. -/
inductive BinValue where
  | core (v : Value)
  | float (name : List Char) (dbl : Bool) (raw : List Nat)

/-- `if value:` on a decoder result: `FloatValue`/`DoubleValue` define
neither `__bool__` nor `__len__`, so a decoded float is always truthy;
every other class keeps its `Value` truthiness. -/
def BinValue.pyTruthy : BinValue → Bool
  | .core v => v.pyTruthy
  | .float _ _ _ => true

/-- The decoded store: insertion-ordered key/value entries. -/
abbrev BinEntries := List (List Char × BinValue)

/-- `ValueStore._create_value_from_binary`: dispatch to the variant's
`from_data`, `None` on a raised error or on a tag without a branch
(`NULL`/`CONTAINER`/`ARRAY`).  The float branches call
`struct.unpack("f", data)` resp. `"d"`, which raises unless the payload
is exactly 4 resp. 8 bytes; the reconstructed float is carried
opaquely. -/
def createValueFromBinary (n : List Char) (t : ValueTypes) (d : List Nat) :
    Option BinValue :=
  match t with
  | .BOOL_VALUE =>
    match d with
    | [b] => some (.core (.vBool n (b ≠ 0)))
    | _ => none
  | .SHORT_VALUE => (numFromData .short n d).map .core
  | .USHORT_VALUE => (numFromData .ushort n d).map .core
  | .INT_VALUE => (numFromData .intk n d).map .core
  | .UINT_VALUE => (numFromData .uintk n d).map .core
  | .LONG_VALUE => (numFromData .long n d).map .core
  | .ULONG_VALUE => (numFromData .ulong n d).map .core
  | .LLONG_VALUE => (numFromData .llong n d).map .core
  | .ULLONG_VALUE => (numFromData .ullong n d).map .core
  | .FLOAT_VALUE => if d.length = 4 then some (.float n false d) else none
  | .DOUBLE_VALUE => if d.length = 8 then some (.float n true d) else none
  | .STRING_VALUE => (utf8Decode d).map (fun s => .core (.vStr n s))
  | .BYTES_VALUE => some (.core (.vBytes n d))
  | _ => none

/-- `store._values[key] = value`: `dict` assignment (an existing key is
overwritten in place, a new key is appended). -/
def dictInsert (s : BinEntries) (k : List Char) (v : BinValue) : BinEntries :=
  if s.any (fun e => e.1 = k) then
    s.map (fun e => if e.1 = k then (k, v) else e)
  else s ++ [(k, v)]

/-- The entry-reading loop of `ValueStore.deserialize_binary`, with the
cursor rendered as the remaining byte list.  Each length prefix is
bounds-checked against the remaining buffer before the cursor advances
(`offset + 4 > len`, `offset + key_len + 5 > len`,
`offset + value_len > len`); a parsed value is kept only `if value:`. -/
def deserializeEntries : Nat → List Nat → BinEntries →
    Except String BinEntries
  | 0, _, acc => .ok acc
  | i + 1, l, acc =>
    if l.length < 4 then .error "Truncated data at entry"
    else
      let keyLen := leToNat (l.take 4)
      let l2 := l.drop 4
      if l2.length < keyLen + 5 then .error "Truncated key data"
      else
        match utf8Decode (l2.take keyLen) with
        | none => .error "key decode"
        | some key =>
          let l3 := l2.drop keyLen
          match valueTypeOfCode (l3.headD 0) with
          | none => .error "unknown type code"
          | some vt =>
            let l4 := l3.drop 1
            let valueLen := leToNat (l4.take 4)
            let l5 := l4.drop 4
            if l5.length < valueLen then .error "Truncated value data"
            else
              let vdata := l5.take valueLen
              let rest := l5.drop valueLen
              let acc' :=
                match createValueFromBinary key vt vdata with
                | some v => if v.pyTruthy then dictInsert acc key v else acc
                | none => acc
              deserializeEntries i rest acc'

/-- `ValueStore.deserialize_binary`: size floor, version check, entry
count, then the bounds-checked entry loop; every failure surfaces as a
raised error rather than a partial store. -/
def deserializeBinary (l : List Nat) : Except String BinEntries :=
  if l.length < 5 then .error "Invalid data: too small"
  else
    match l with
    | ver :: rest =>
      if ver ≠ BINARY_VERSION then .error "Unsupported version"
      else
        let count := leToNat (rest.take 4)
        deserializeEntries count (rest.drop 4) []
    | [] => .error "Invalid data: too small"

/-- Substring occurrence test (used to state "contains the exact
substring" side conditions). -/
def hasSubstring (pat : List Char) : List Char → Bool
  | [] => pat.isEmpty
  | c :: t => (dropLit pat (c :: t)).isSome || hasSubstring pat t

/-- Whether an accessor call returned normally (`.ok`) or raised
(`.error`). -/
def exceptOk {α : Type} : Except String α → Bool
  | .ok _ => true
  | .error _ => false

/-- An entry whose lengths fit `struct.pack("<I", ...)` (Python raises on
larger inputs before any bytes are produced). -/
def smallEntry (e : List Char × Value) : Prop :=
  (utf8Encode e.1).length < 2 ^ 32 ∧ e.2.dataBytes.length < 2 ^ 32

/-- The concatenated entry section of `serialize_binary`. -/
def flattenEntries (s : StoreEntries) : List Nat := (s.map entryBytes).flatten

/-- A value with its name replaced (deserialized values are recreated
with the store key as their name). -/
def Value.withName : Value → List Char → Value
  | .vNull _, k => .vNull k
  | .vBool _ b, k => .vBool k b
  | .vNum _ kk v, k => .vNum k kk v
  | .vStr _ s, k => .vStr k s
  | .vBytes _ d, k => .vBytes k d
  | .vContainer _ us, k => .vContainer k us
  | .vArray _ vs, k => .vArray k vs

/-- A store value of one of the kinds the binary codec reconstructs
(bool, fixed-width integer, string, bytes), constructible (for numerics:
in the range its packing accepts). -/
def wfBinaryValue : Value → Prop
  | .vBool _ _ => True
  | .vNum _ kk v => (kk.pack v).isSome = true
  | .vStr _ _ => True
  | .vBytes _ _ => True
  | _ => False

/-- Little-endian digit value. -/
def ofRevDigits : List Nat → Nat
  | [] => 0
  | d :: t => d + 10 * ofRevDigits t

/-- The placeholder token `_deserialize_values` substitutes for `\];`. -/
def escTokChars : List Char := "__ESCAPED_SEMICOLON_BRACKET__".data

/-- The image of a string value under serialize-side escaping followed by
the deserializer token substitution: every `];` becomes the 29-character
escape token, all other characters pass through. -/
def tokStr : List Char → List Char
  | ']' :: ';' :: t => escTokChars ++ tokStr t
  | c :: t => c :: tokStr t
  | [] => []

/-! ## Arithmetic helper lemmas for packing -/

theorem natToLE_length (w n : Nat) : (natToLE w n).length = w := by
  induction w generalizing n with
  | zero => rfl
  | succ w ih => simp [natToLE, ih]

theorem leToNat_natToLE (w n : Nat) (h : n < 2 ^ (8 * w)) :
    leToNat (natToLE w n) = n := by
  induction w generalizing n with
  | zero => simp [natToLE, leToNat]; omega
  | succ w ih =>
    have hpow : 2 ^ (8 * (w + 1)) = 2 ^ (8 * w) * 256 := by
      rw [show 8 * (w + 1) = 8 * w + 8 by ring, pow_add]; norm_num
    have hdiv : n / 256 < 2 ^ (8 * w) := by
      rw [Nat.div_lt_iff_lt_mul (by norm_num : 0 < 256)]
      omega
    simp only [natToLE, leToNat, ih (n / 256) hdiv]
    omega

theorem unpackSigned_packSigned (w : Nat) (hw : 0 < w) (v : Int)
    (h1 : -(2 ^ (8 * w - 1)) ≤ v) (h2 : v < 2 ^ (8 * w - 1)) :
    ∃ bs, packSigned w v = some bs ∧ unpackSigned w bs = some v := by
  have hsucc : 8 * w - 1 + 1 = 8 * w := by omega
  have hpow : (2 : Int) ^ (8 * w) = 2 * 2 ^ (8 * w - 1) := by
    rw [← pow_succ', hsucc]
  have hposI : (0 : Int) < 2 ^ (8 * w) := by positivity
  have hposI' : (0 : Int) < 2 ^ (8 * w - 1) := by positivity
  have hlt : v < 2 ^ (8 * w) := by omega
  refine ⟨natToLE w (v.emod (2 ^ (8 * w))).toNat, ?_, ?_⟩
  · simp only [packSigned, if_pos (And.intro h1 h2)]
  · have hm0 : 0 ≤ v.emod (2 ^ (8 * w)) := Int.emod_nonneg v (by positivity)
    have hm1 : v.emod (2 ^ (8 * w)) < 2 ^ (8 * w) := Int.emod_lt_of_pos v hposI
    have htoNat : ((v.emod (2 ^ (8 * w))).toNat : Int) = v.emod (2 ^ (8 * w)) :=
      Int.toNat_of_nonneg hm0
    have hlen := natToLE_length w (v.emod (2 ^ (8 * w))).toNat
    have hval := leToNat_natToLE w (v.emod (2 ^ (8 * w))).toNat (by
      have h : ((v.emod (2 ^ (8 * w))).toNat : Int) < ((2 ^ (8 * w) : Nat) : Int) := by
        rw [htoNat]; push_cast; exact hm1
      exact_mod_cast h)
    have hemod : v.emod (2 ^ (8 * w)) = if 0 ≤ v then v else v + 2 ^ (8 * w) := by
      rcases le_or_lt 0 v with hv | hv
      · rw [if_pos hv]; exact Int.emod_eq_of_lt hv hlt
      · rw [if_neg (not_le.mpr hv)]
        have h01 : (v + 2 ^ (8 * w) * 1) % (2 ^ (8 * w)) = v % 2 ^ (8 * w) :=
          Int.add_mul_emod_self_left v (2 ^ (8 * w)) 1
        rw [mul_one] at h01
        have h02 : (v + 2 ^ (8 * w)) % (2 ^ (8 * w)) = v + 2 ^ (8 * w) :=
          Int.emod_eq_of_lt (by omega) (by omega)
        calc v.emod (2 ^ (8 * w)) = (v + 2 ^ (8 * w)) % (2 ^ (8 * w)) := h01.symm
          _ = v + 2 ^ (8 * w) := h02
    simp only [unpackSigned, hlen, if_pos rfl, hval, Option.some.injEq]
    rcases le_or_lt 0 v with hv | hv
    · rw [if_pos hv] at hemod
      have hsmall : (v.emod (2 ^ (8 * w))).toNat < 2 ^ (8 * w - 1) := by
        have h : ((v.emod (2 ^ (8 * w))).toNat : Int) < ((2 ^ (8 * w - 1) : Nat) : Int) := by
          rw [htoNat, hemod]; push_cast; exact h2
        exact_mod_cast h
      rw [if_pos hsmall, htoNat, hemod]
      simp
    · rw [if_neg (not_le.mpr hv)] at hemod
      have hbig : ¬((v.emod (2 ^ (8 * w))).toNat < 2 ^ (8 * w - 1)) := by
        intro hcon
        have hc : ((v.emod (2 ^ (8 * w))).toNat : Int) < ((2 ^ (8 * w - 1) : Nat) : Int) := by
          exact_mod_cast hcon
        rw [htoNat, hemod] at hc
        push_cast at hc
        omega
      rw [if_neg hbig, htoNat, hemod]
      simp

theorem unpackUnsigned_packUnsigned (w : Nat) (v : Int)
    (h1 : 0 ≤ v) (h2 : v < 2 ^ (8 * w)) :
    ∃ bs, packUnsigned w v = some bs ∧ unpackUnsigned w bs = some v := by
  refine ⟨natToLE w v.toNat, ?_, ?_⟩
  · simp only [packUnsigned, if_pos (And.intro h1 h2)]
  · have hlen := natToLE_length w v.toNat
    have hval := leToNat_natToLE w v.toNat (by
      have h : (v.toNat : Int) < ((2 ^ (8 * w) : Nat) : Int) := by
        rw [Int.toNat_of_nonneg h1]; push_cast; exact h2
      exact_mod_cast h)
    simp only [unpackUnsigned, hlen, if_pos rfl, hval, Option.some.injEq]
    rw [Int.toNat_of_nonneg h1]
    simp

/-! ## Helper lemmas: list splitting, UTF-8 round-trip, entry parsing -/

set_option maxRecDepth 4000

theorem char_ofNat_toNat_eq (n : Nat) (h : n.isValidChar) :
    (Char.ofNat n).toNat = n := by
  simp [Char.ofNat, h, Char.ofNatAux, Char.toNat]
  rfl

theorem utf8Decode_encodeChar (c : Char) (l : List Nat) :
    utf8Decode (utf8EncodeChar c ++ l) = (utf8Decode l).map (c :: ·) := by
  have hval : c.toNat < 0xd800 ∨ (0xdfff < c.toNat ∧ c.toNat < 0x110000) := c.valid
  have hofn : Char.ofNat c.toNat = c := Char.ofNat_toNat c
  set n := c.toNat with hn
  by_cases h1 : n < 0x80
  · have he : utf8EncodeChar c = [n] := by
      simp [utf8EncodeChar, ← hn, h1]
    rw [he, List.cons_append, List.nil_append, utf8Decode.eq_def]
    simp only [if_pos h1, hofn]
  · by_cases h2 : n < 0x800
    · have he : utf8EncodeChar c = [0xC0 + n / 64, 0x80 + n % 64] := by
        simp [utf8EncodeChar, ← hn, h1, h2]
      have hchar : Char.ofNat ((0xC0 + n / 64 - 0xC0) * 64 + (0x80 + n % 64 - 0x80)) = c := by
        rw [show (0xC0 + n / 64 - 0xC0) * 64 + (0x80 + n % 64 - 0x80) = n from by omega, hofn]
      rw [he]
      simp only [List.cons_append, List.nil_append]
      rw [utf8Decode.eq_def]
      simp only [if_neg (show ¬(0xC0 + n / 64 < 0x80) from by omega),
        if_neg (show ¬(0xC0 + n / 64 < 0xC2) from by omega),
        if_pos (show 0xC0 + n / 64 < 0xE0 from by omega),
        if_pos (show utf8Cont (0x80 + n % 64) = true from by simp [utf8Cont]; omega),
        hchar]
    · by_cases h3 : n < 0x10000
      · have he : utf8EncodeChar c =
            [0xE0 + n / 4096, 0x80 + n / 64 % 64, 0x80 + n % 64] := by
          simp [utf8EncodeChar, ← hn, h1, h2, h3]
        have hA : (0xE0 + n / 4096 - 0xE0) * 4096 +
            ((0x80 + n / 64 % 64 - 0x80) * 64 + (0x80 + n % 64 - 0x80)) = n := by
          omega
        rw [he]
        simp only [List.cons_append, List.nil_append]
        rw [utf8Decode.eq_def]
        simp only [if_neg (show ¬(0xE0 + n / 4096 < 0x80) from by omega),
          if_neg (show ¬(0xE0 + n / 4096 < 0xC2) from by omega),
          if_neg (show ¬(0xE0 + n / 4096 < 0xE0) from by omega),
          if_pos (show 0xE0 + n / 4096 < 0xF0 from by omega)]
        rw [if_pos (by
          refine ⟨by simp [utf8Cont]; omega, by simp [utf8Cont]; omega, by omega, by omega⟩)]
        congr 1
        rw [show (0xE0 + n / 4096 - 0xE0) * 4096 + (0x80 + n / 64 % 64 - 0x80) * 64 +
          (0x80 + n % 64 - 0x80) = n from by omega, hofn]
      · have h4 : n < 0x110000 := by omega
        have he : utf8EncodeChar c =
            [0xF0 + n / 262144, 0x80 + n / 4096 % 64, 0x80 + n / 64 % 64,
             0x80 + n % 64] := by
          simp [utf8EncodeChar, ← hn, h1, h2, h3]
        rw [he]
        simp only [List.cons_append, List.nil_append]
        rw [utf8Decode.eq_def]
        simp only [if_neg (show ¬(0xF0 + n / 262144 < 0x80) from by omega),
          if_neg (show ¬(0xF0 + n / 262144 < 0xC2) from by omega),
          if_neg (show ¬(0xF0 + n / 262144 < 0xE0) from by omega),
          if_neg (show ¬(0xF0 + n / 262144 < 0xF0) from by omega),
          if_pos (show 0xF0 + n / 262144 < 0xF5 from by omega)]
        rw [if_pos (by
          refine ⟨by simp [utf8Cont]; omega, by simp [utf8Cont]; omega,
            by simp [utf8Cont]; omega, by omega, by omega⟩)]
        congr 1
        rw [show (0xF0 + n / 262144 - 0xF0) * 262144 + (0x80 + n / 4096 % 64 - 0x80) * 4096 +
          (0x80 + n / 64 % 64 - 0x80) * 64 + (0x80 + n % 64 - 0x80) = n from by omega, hofn]

theorem utf8Decode_encode_append (s : List Char) (l : List Nat) :
    utf8Decode (utf8Encode s ++ l) = (utf8Decode l).map (s ++ ·) := by
  induction s with
  | nil =>
    simp only [utf8Encode, List.map_nil, List.flatten_nil, List.nil_append]
    cases utf8Decode l <;> simp
  | cons c t ih =>
    have h : utf8Encode (c :: t) = utf8EncodeChar c ++ utf8Encode t := by
      simp [utf8Encode]
    rw [h, List.append_assoc, utf8Decode_encodeChar, ih]
    cases utf8Decode l <;> simp

theorem utf8Decode_encode (s : List Char) :
    utf8Decode (utf8Encode s) = some s := by
  have h := utf8Decode_encode_append s []
  simpa [utf8Decode] using h

theorem take_append_of_le {α : Type} (xs ys : List α) (n : Nat)
    (h : xs.length ≤ n) : (xs ++ ys).take n = xs ++ ys.take (n - xs.length) := by
  rw [List.take_append_eq_append_take, List.take_of_length_le h]

theorem drop_append_of_le {α : Type} (xs ys : List α) (n : Nat)
    (h : xs.length ≤ n) : (xs ++ ys).drop n = ys.drop (n - xs.length) := by
  rw [List.drop_append_eq_append_drop, List.drop_of_length_le h, List.nil_append]

/-- Parsing one complete serialized entry consumes exactly its bytes. -/
theorem deserializeEntries_step (kb vb q : List Nat) (ty i : Nat)
    (acc : BinEntries) (hk : kb.length < 2 ^ 32) (hv : vb.length < 2 ^ 32) :
    deserializeEntries (i + 1)
        (natToLE 4 kb.length ++ (kb ++ (ty :: (natToLE 4 vb.length ++ (vb ++ q)))))
        acc =
      (match utf8Decode kb with
       | none => .error "key decode"
       | some key =>
         match valueTypeOfCode ty with
         | none => .error "unknown type code"
         | some vt =>
           deserializeEntries i q
             (match createValueFromBinary key vt vb with
              | some v => if v.pyTruthy then dictInsert acc key v else acc
              | none => acc)) := by
  have hkl4 : (natToLE 4 kb.length).length = 4 := natToLE_length 4 _
  have hvl4 : (natToLE 4 vb.length).length = 4 := natToLE_length 4 _
  set a := natToLE 4 kb.length with ha
  set b := natToLE 4 vb.length with hb
  set X := kb ++ (ty :: (b ++ (vb ++ q))) with hX
  have hXlen : X.length = kb.length + vb.length + q.length + 5 := by
    simp [hX, hvl4]
    omega
  have h4 : ¬((a ++ X).length < 4) := by
    simp [hkl4]
  have htake4 : (a ++ X).take 4 = a := by
    rw [take_append_of_le _ _ 4 hkl4.le]
    simp [hkl4]
  have hdrop4 : (a ++ X).drop 4 = X := by
    rw [drop_append_of_le _ _ 4 hkl4.le]
    simp [hkl4]
  have hkeyLen : leToNat a = kb.length :=
    leToNat_natToLE 4 kb.length (by norm_num; omega)
  have hl2len : ¬(X.length < kb.length + 5) := by omega
  have htakekb : X.take kb.length = kb := by
    rw [hX, take_append_of_le _ _ _ (le_refl _)]
    simp
  have hdropkb : X.drop kb.length = ty :: (b ++ (vb ++ q)) := by
    rw [hX, drop_append_of_le _ _ _ (le_refl _)]
    simp
  have htakeb : (b ++ (vb ++ q)).take 4 = b := by
    rw [take_append_of_le _ _ 4 hvl4.le]
    simp [hvl4]
  have hdropb : (b ++ (vb ++ q)).drop 4 = vb ++ q := by
    rw [drop_append_of_le _ _ 4 hvl4.le]
    simp [hvl4]
  have hvalueLen : leToNat b = vb.length :=
    leToNat_natToLE 4 vb.length (by norm_num; omega)
  have hl5len : ¬((vb ++ q).length < vb.length) := by simp
  have htakevb : (vb ++ q).take vb.length = vb := by
    rw [take_append_of_le _ _ _ (le_refl _)]
    simp
  have hdropvb : (vb ++ q).drop vb.length = q := by
    rw [drop_append_of_le _ _ _ (le_refl _)]
    simp
  simp only [deserializeEntries, if_neg h4, htake4, hdrop4, hkeyLen,
    if_neg hl2len, htakekb, hdropkb, List.headD_cons, List.drop_one,
    List.tail_cons, htakeb, hdropb, hvalueLen, if_neg hl5len, htakevb,
    hdropvb]

/-! ## The claims -/

/-- C6: the type-code registry functions are total and pure: decoding
the code of any `ValueTypes` member gives the member back; encoding the
decoded member of any registered code string `"0"`..`"15"` gives the
code back; every unregistered string decodes to `NULL_VALUE`; and
`get_string_from_type` always returns one of the registered codes. -/
theorem type_registry_total_bijection :
    (∀ t : ValueTypes, get_type_from_string (get_string_from_type t) = t) ∧
    (∀ c ∈ typeCodes, get_string_from_type (get_type_from_string c) = c) ∧
    (∀ s : String, s ∉ typeCodes → get_type_from_string s = .NULL_VALUE) ∧
    (∀ t : ValueTypes, get_string_from_type t ∈ typeCodes) := by
  refine ⟨by decide, by decide, ?_, by decide⟩
  intro s h
  simp only [typeCodes, List.mem_cons, not_or, List.mem_singleton] at h
  obtain ⟨h0, h1, h2, h3, h4, h5, h6, h7, h8, h9, h10, h11, h12, h13, h14,
    h15, -⟩ := h
  have e0 := beq_false_of_ne h0
  have e1 := beq_false_of_ne h1
  have e2 := beq_false_of_ne h2
  have e3 := beq_false_of_ne h3
  have e4 := beq_false_of_ne h4
  have e5 := beq_false_of_ne h5
  have e6 := beq_false_of_ne h6
  have e7 := beq_false_of_ne h7
  have e8 := beq_false_of_ne h8
  have e9 := beq_false_of_ne h9
  have e10 := beq_false_of_ne h10
  have e11 := beq_false_of_ne h11
  have e12 := beq_false_of_ne h12
  have e13 := beq_false_of_ne h13
  have e14 := beq_false_of_ne h14
  have e15 := beq_false_of_ne h15
  simp [get_type_from_string, TYPE_MAP, List.lookup,
    e0, e1, e2, e3, e4, e5, e6, e7, e8, e9, e10, e11, e12, e13, e14, e15]

/-- Witness for C6 at the concrete unregistered code `"banana"`. -/
theorem type_registry_total_bijection_witness :
    get_type_from_string "banana" = .NULL_VALUE ∧ "banana" ∉ typeCodes :=
  ⟨type_registry_total_bijection.2.2.1 "banana" (by decide), by decide⟩

/-- C3: `LongValue` construction succeeds exactly on `[-2^31, 2^31-1]`
and `ULongValue` construction exactly on `[0, 2^32-1]`; an in-range
value is stored unclamped, its payload is exactly 4 bytes, and it
round-trips through the fixed little-endian encoding via `from_data`. -/
theorem long_ulong_range_policy :
    (∀ (n : List Char) (v : Int),
      (mkNum .long n v).isSome ↔ (-(2 ^ 31) ≤ v ∧ v ≤ 2 ^ 31 - 1)) ∧
    (∀ (n : List Char) (v : Int),
      (mkNum .ulong n v).isSome ↔ (0 ≤ v ∧ v ≤ 2 ^ 32 - 1)) ∧
    (∀ (n : List Char) (v : Int), -(2 ^ 31) ≤ v → v ≤ 2 ^ 31 - 1 →
      mkNum .long n v = some (.vNum n .long v) ∧
      (Value.dataBytes (.vNum n .long v)).length = 4 ∧
      numFromData .long n (Value.dataBytes (.vNum n .long v)) =
        some (.vNum n .long v)) ∧
    (∀ (n : List Char) (v : Int), 0 ≤ v → v ≤ 2 ^ 32 - 1 →
      mkNum .ulong n v = some (.vNum n .ulong v) ∧
      (Value.dataBytes (.vNum n .ulong v)).length = 4 ∧
      numFromData .ulong n (Value.dataBytes (.vNum n .ulong v)) =
        some (.vNum n .ulong v)) := by
  have hiffL : ∀ (n : List Char) (v : Int),
      (mkNum .long n v).isSome ↔ (-(2 ^ 31) ≤ v ∧ v ≤ 2 ^ 31 - 1) := by
    intro n v
    simp only [mkNum, IntKind.pack, IntKind.signed, IntKind.width, packSigned,
      Option.isSome_map]
    norm_num
    omega
  have hiffU : ∀ (n : List Char) (v : Int),
      (mkNum .ulong n v).isSome ↔ (0 ≤ v ∧ v ≤ 2 ^ 32 - 1) := by
    intro n v
    simp only [mkNum, IntKind.pack, IntKind.signed, IntKind.width,
      packUnsigned, Option.isSome_map]
    norm_num
    omega
  refine ⟨hiffL, hiffU, ?_, ?_⟩
  · intro n v hlo hhi
    obtain ⟨bs, hpack, hunpack⟩ := unpackSigned_packSigned 4 (by norm_num) v
      (by norm_num; omega) (by norm_num; omega)
    have hpack' : IntKind.pack .long v = some bs := by
      simpa [IntKind.pack, IntKind.signed, IntKind.width] using hpack
    have hmk : mkNum .long n v = some (.vNum n .long v) := by
      simp [mkNum, hpack']
    have hdata : Value.dataBytes (.vNum n .long v) = bs := by
      simp [Value.dataBytes, hpack']
    have hlen : bs.length = 4 := by
      by_contra hne
      simp [unpackSigned, hne] at hunpack
    refine ⟨hmk, by rw [hdata, hlen], ?_⟩
    rw [hdata]
    simp [numFromData, IntKind.unpack, IntKind.signed, IntKind.width,
      hunpack, hmk]
  · intro n v hlo hhi
    obtain ⟨bs, hpack, hunpack⟩ := unpackUnsigned_packUnsigned 4 v hlo
      (by norm_num; omega)
    have hpack' : IntKind.pack .ulong v = some bs := by
      simpa [IntKind.pack, IntKind.signed, IntKind.width] using hpack
    have hmk : mkNum .ulong n v = some (.vNum n .ulong v) := by
      simp [mkNum, hpack']
    have hdata : Value.dataBytes (.vNum n .ulong v) = bs := by
      simp [Value.dataBytes, hpack']
    have hlen : bs.length = 4 := by
      by_contra hne
      simp [unpackUnsigned, hne] at hunpack
    refine ⟨hmk, by rw [hdata, hlen], ?_⟩
    rw [hdata]
    simp [numFromData, IntKind.unpack, IntKind.signed, IntKind.width,
      hunpack, hmk]

/-- Witness for C3 at the boundary values: `2^31 - 1` constructs and
round-trips, `2^31` and `-1` fail, `2^32 - 1` constructs. -/
theorem long_ulong_range_policy_witness :
    mkNum .long "v".data (2 ^ 31 - 1) =
      some (.vNum "v".data .long (2 ^ 31 - 1)) ∧
    numFromData .long "v".data
        (Value.dataBytes (.vNum "v".data .long (2 ^ 31 - 1))) =
      some (.vNum "v".data .long (2 ^ 31 - 1)) ∧
    mkNum .ulong "v".data (2 ^ 32 - 1) =
      some (.vNum "v".data .ulong (2 ^ 32 - 1)) ∧
    mkNum .long "v".data (2 ^ 31) = none ∧
    mkNum .ulong "v".data (-1) = none := by
  have hL := long_ulong_range_policy.2.2.1 "v".data (2 ^ 31 - 1)
    (by norm_num) (by norm_num)
  have hU := long_ulong_range_policy.2.2.2 "v".data (2 ^ 32 - 1)
    (by norm_num) (by norm_num)
  exact ⟨hL.1, hL.2.2, hU.1, rfl, rfl⟩

/-- C7: every narrowing accessor raises exactly on values of type
`NULL_VALUE` (the `NullValue` class, which overrides none of them) and
returns normally on every other variant (each either overrides the
accessor with a non-raising version or inherits
`Value._safe_convert`, which only raises on NULL). -/
theorem narrowing_accessors_raise_iff_null (v : Value) :
    (exceptOk (toBoolean v) = true ↔ v.vtype ≠ .NULL_VALUE) ∧
    (exceptOk (toShort v) = true ↔ v.vtype ≠ .NULL_VALUE) ∧
    (exceptOk (toUshort v) = true ↔ v.vtype ≠ .NULL_VALUE) ∧
    (exceptOk (toInt v) = true ↔ v.vtype ≠ .NULL_VALUE) ∧
    (exceptOk (toUint v) = true ↔ v.vtype ≠ .NULL_VALUE) ∧
    (exceptOk (toLong v) = true ↔ v.vtype ≠ .NULL_VALUE) ∧
    (exceptOk (toUlong v) = true ↔ v.vtype ≠ .NULL_VALUE) ∧
    (exceptOk (toLlong v) = true ↔ v.vtype ≠ .NULL_VALUE) ∧
    (exceptOk (toUllong v) = true ↔ v.vtype ≠ .NULL_VALUE) ∧
    (exceptOk (toFloat v) = true ↔ v.vtype ≠ .NULL_VALUE) ∧
    (exceptOk (toDouble v) = true ↔ v.vtype ≠ .NULL_VALUE) := by
  cases v with
  | vNum n k val =>
    cases k <;>
      simp [toBoolean, toShort, toUshort, toInt, toUint, toLong, toUlong,
        toLlong, toUllong, toFloat, toDouble, safeConvert, Value.vtype,
        IntKind.vtype, exceptOk]
  | _ =>
    simp [toBoolean, toShort, toUshort, toInt, toUint, toLong, toUlong,
      toLlong, toUllong, toFloat, toDouble, safeConvert, Value.vtype,
      exceptOk]

/-- C9: `ContainerValue.from_data` and `ContainerValue.from_string`
return an empty container for every payload — even for a payload that is
the full serialization of a nonempty container — so nested data routed
through these factories is lost. -/
theorem container_factories_discard_payload :
    (∀ (n : List Char) (d : List Nat), containerValueFromData n d =
      .vContainer n []) ∧
    (∀ (n s : List Char), containerValueFromString n s =
      .vContainer n []) ∧
    containerValueFromString "outer".data
        (serializeValue (.vContainer "inner".data [.vNum "x".data .intk 7])) =
      .vContainer "outer".data [] :=
  ⟨fun _ _ => rfl, fun _ _ => rfl, rfl⟩

/-- C2 (code bug): `ContainerValue.serialize` emits an *empty* value
field `[A,14,];` rather than the child count `[A,14,1];` demanded by the
wire format (and expected by `_parse_value_recursive`), while
`ArrayValue.serialize` does emit its element count. -/
theorem container_serialize_omits_child_count :
    serializeValue (.vContainer "A".data [.vNum "x".data .intk 1]) =
      "[A,14,];[x,4,1];".data ∧
    serializeValue (.vContainer "A".data [.vNum "x".data .intk 1]) ≠
      ('[' :: "A".data ++ ',' :: typeCodeChars .CONTAINER_VALUE ++
        ',' :: natToChars 1 ++ [']', ';']) ++
        serializeValue (.vNum "x".data .intk 1) ∧
    serializeValue (.vArray "arr".data
        [.vNum "x".data .intk 1, .vNum "y".data .intk 2]) =
      ('[' :: "arr".data ++ ',' :: typeCodeChars .ARRAY_VALUE ++
        ',' :: natToChars 2 ++ [']', ';']) ++
        serializeValue (.vNum "x".data .intk 1) ++
        serializeValue (.vNum "y".data .intk 2) := by
  refine ⟨rfl, ?_, by decide⟩
  decide

/-- C1 (code bug): serializing a container holding one nested
`ContainerValue` with one child and deserializing the result does not
reproduce the units: the missing child count makes the parser read the
nested container as empty (after which the `if value:` guard drops it)
and its child is promoted to a top-level unit. -/
theorem nested_container_roundtrip_breaks :
    (ContainerState.init.add
        (.vContainer "A".data [.vNum "x".data .intk 1])).units =
      [.vContainer "A".data [.vNum "x".data .intk 1]] ∧
    (ContainerState.init.deserialize
        ((ContainerState.init.add
          (.vContainer "A".data [.vNum "x".data .intk 1])).serialize.1)
        false).1 = true ∧
    (ContainerState.init.deserialize
        ((ContainerState.init.add
          (.vContainer "A".data [.vNum "x".data .intk 1])).serialize.1)
        false).2.units = [.vNum "x".data .intk 1] ∧
    ([Value.vNum "x".data .intk 1] ≠
      [Value.vContainer "A".data [.vNum "x".data .intk 1]]) := by
  refine ⟨rfl, rfl, rfl, ?_⟩
  simp

/-- C10: `deserialize` on input with no `@header={{...}}` block returns
`False` and leaves every header field and the unit list untouched; the
only mutation is the serialization cache, overwritten with the raw
input. -/
theorem deserialize_no_header_preserves_state (st : ContainerState)
    (s : List Char) (b : Bool) (h : searchHeader s = none) :
    st.deserialize s b = (false, { st with data_string := s }) := by
  simp only [ContainerState.deserialize, h]

/-- Witness for C10 at the concrete header-free input `"garbage"`. -/
theorem deserialize_no_header_preserves_state_witness :
    searchHeader "garbage".data = none ∧
    ContainerState.init.deserialize "garbage".data true =
      (false, { ContainerState.init with data_string := "garbage".data }) :=
  ⟨rfl, deserialize_no_header_preserves_state ContainerState.init
    "garbage".data true rfl⟩

/-- After any `serialize`, the state is clean: the dirty flag is down,
the cache holds exactly the returned (nonempty) string, and a repeated
`serialize` returns the identical cached string with an unchanged
state. -/
theorem serialize_idempotent_cached (st : ContainerState) :
    st.serialize.2.serialize = (st.serialize.1, st.serialize.2) ∧
    st.serialize.2.changed_data = false ∧
    st.serialize.2.data_string = st.serialize.1 ∧
    st.serialize.1.isEmpty = false := by
  have hcontent : ∀ st' : ContainerState,
      (serializeContent st').isEmpty = false := by
    intro st'
    rw [show serializeContent st' = '@' :: ("header=\x7b\x7b".data ++
      (('[' :: '1' :: ',' :: st'.target_id ++ [']', ';']) ++
       ('[' :: '2' :: ',' :: st'.target_sub_id ++ [']', ';']) ++
       ('[' :: '3' :: ',' :: st'.source_id ++ [']', ';']) ++
       ('[' :: '4' :: ',' :: st'.source_sub_id ++ [']', ';']) ++
       ('[' :: '5' :: ',' :: st'.message_type ++ [']', ';']) ++
       ('[' :: '6' :: ',' :: st'.version ++ [']', ';']) ++
      "\x7d\x7d".data ++
      "@data=\x7b\x7b".data ++ serializeValues st'.units ++ "\x7d\x7d;".data)) from rfl]
    rfl
  by_cases hc : (!st.changed_data && !st.data_string.isEmpty) = true
  · have h1 : st.serialize = (st.data_string, st) := by
      simp [ContainerState.serialize, hc]
    rw [h1]
    simp only [Bool.and_eq_true, Bool.not_eq_true'] at hc
    exact ⟨by simp [ContainerState.serialize, hc.1, hc.2], hc.1, rfl, hc.2⟩
  · have h1 : st.serialize = (serializeContent st,
        { st with data_string := serializeContent st,
                  changed_data := false }) := by
      simp only [ContainerState.serialize]
      rw [if_neg (by simpa using hc)]
    rw [h1]
    refine ⟨?_, rfl, rfl, hcontent st⟩
    simp [ContainerState.serialize, hcontent st]

/-- C8: the cached-serialize behaviour of
`serialize_idempotent_cached`, plus: each of the eight mutating
operations raises the dirty flag, so a serialize that follows it
rebuilds the string from the current state instead of using the
cache. -/
theorem mutators_dirty_and_serialize_recomputes (st : ContainerState)
    (v : Value) (vs : List Value) (n sid ssid tid tsid mt : List Char) :
    (st.serialize.2.serialize = (st.serialize.1, st.serialize.2) ∧
     st.serialize.2.changed_data = false ∧
     st.serialize.2.data_string = st.serialize.1) ∧
    ((st.add v).changed_data = true ∧
      (st.add v).serialize.1 = serializeContent (st.add v)) ∧
    ((st.removeByName n).changed_data = true ∧
      (st.removeByName n).serialize.1 =
        serializeContent (st.removeByName n)) ∧
    ((st.setUnits vs).changed_data = true ∧
      (st.setUnits vs).serialize.1 = serializeContent (st.setUnits vs)) ∧
    (st.clearValue.changed_data = true ∧
      st.clearValue.serialize.1 = serializeContent st.clearValue) ∧
    ((st.setSource sid ssid).changed_data = true ∧
      (st.setSource sid ssid).serialize.1 =
        serializeContent (st.setSource sid ssid)) ∧
    ((st.setTarget tid tsid).changed_data = true ∧
      (st.setTarget tid tsid).serialize.1 =
        serializeContent (st.setTarget tid tsid)) ∧
    ((st.setMessageType mt).changed_data = true ∧
      (st.setMessageType mt).serialize.1 =
        serializeContent (st.setMessageType mt)) ∧
    (st.swapHeader.changed_data = true ∧
      st.swapHeader.serialize.1 = serializeContent st.swapHeader) := by
  have hser : ∀ st' : ContainerState, st'.changed_data = true →
      st'.serialize.1 = serializeContent st' := by
    intro st' h
    simp [ContainerState.serialize, h]
  have hcache := serialize_idempotent_cached st
  refine ⟨⟨hcache.1, hcache.2.1, hcache.2.2.1⟩, ?_, ?_, ?_, ?_, ?_, ?_, ?_, ?_⟩
  all_goals refine ⟨rfl, hser _ rfl⟩

/-- C5 counterexample: the string `"];};"` contains the exact substring
`"];"`, but serializing a container holding it and deserializing the
result loses the value entirely: the lazy data-block pattern
`@data=\{\{?(.*?)\}\}?;` stops at the `};` inside the (escaped) string,
truncating the data block before the value's closing delimiter. -/
theorem escaped_string_with_brace_semicolon_lost :
    (ContainerState.init.add (.vStr "s".data "];\x7d;".data)).units =
      [.vStr "s".data "];\x7d;".data] ∧
    hasSubstring "];".data "];\x7d;".data = true ∧
    (ContainerState.init.deserialize
        ((ContainerState.init.add
          (.vStr "s".data "];\x7d;".data)).serialize.1) false).2.units = [] :=
  ⟨rfl, rfl, rfl⟩

/-- C4 counterexample: a store holding `BoolValue("b", False)` has one
key, but deserializing its binary serialization yields an empty store:
`deserialize_binary` keeps a decoded value only `if value:`, and
`BoolValue.__bool__` makes a false boolean falsy.  (The same guard drops
`NullValue`, empty strings/bytes, and the branchless
NULL/CONTAINER/ARRAY tags.) -/
theorem falsy_store_value_dropped_in_binary_roundtrip :
    ([(("b".data : List Char), Value.vBool "b".data false)] :
      StoreEntries).length = 1 ∧
    deserializeBinary (serializeBinary
      [(("b".data : List Char), Value.vBool "b".data false)]) = .ok [] :=
  ⟨rfl, rfl⟩

theorem entryBytes_assoc (e : List Char × Value) :
    entryBytes e = natToLE 4 (utf8Encode e.1).length ++ ((utf8Encode e.1) ++
      (e.2.vtype.code :: (natToLE 4 e.2.dataBytes.length ++
        (e.2.dataBytes ++ [])))) := by
  simp [entryBytes]

theorem entryBytes_length (e : List Char × Value) :
    (entryBytes e).length =
      (utf8Encode e.1).length + e.2.dataBytes.length + 9 := by
  simp [entryBytes, natToLE_length]
  omega

/-- Parsing a properly truncated entry raises one of the bounds-check
errors (or a decode error) — it never succeeds. -/
theorem deserializeEntries_trunc_entry (kb vb : List Nat) (ty i : Nat)
    (acc : BinEntries) (m : Nat)
    (hk : kb.length < 2 ^ 32) (hv : vb.length < 2 ^ 32)
    (hm : m < kb.length + vb.length + 9) :
    ∃ msg, deserializeEntries (i + 1)
      ((natToLE 4 kb.length ++ (kb ++ (ty :: (natToLE 4 vb.length ++ vb)))).take m)
      acc = .error msg := by
  have hkl4 : (natToLE 4 kb.length).length = 4 := natToLE_length 4 _
  have hvl4 : (natToLE 4 vb.length).length = 4 := natToLE_length 4 _
  set a := natToLE 4 kb.length with ha
  set b := natToLE 4 vb.length with hb
  set X := kb ++ (ty :: (b ++ vb)) with hX
  have hXlen : X.length = kb.length + vb.length + 5 := by
    simp [hX, hvl4]
    omega
  have hkeyLen : leToNat a = kb.length :=
    leToNat_natToLE 4 kb.length (by norm_num; omega)
  by_cases h4 : m < 4
  · refine ⟨"Truncated data at entry", ?_⟩
    have hplen : ((a ++ X).take m).length = m := by
      rw [List.length_take]
      simp only [List.length_append, hkl4]
      omega
    rw [deserializeEntries.eq_def]
    simp only [hplen, if_pos h4]
  · push_neg at h4
    have hsplit : (a ++ X).take m = a ++ X.take (m - 4) := by
      rw [take_append_of_le _ _ m (by omega), hkl4]
    by_cases h5 : m - 4 < kb.length + 5
    · refine ⟨"Truncated key data", ?_⟩
      rw [hsplit, deserializeEntries.eq_def]
      have hl : (a ++ X.take (m - 4)).length = 4 + (m - 4) := by
        simp only [List.length_append, hkl4, List.length_take]
        omega
      have h4' : ¬((a ++ X.take (m - 4)).length < 4) := by omega
      have htk : (a ++ X.take (m - 4)).take 4 = a := by
        rw [take_append_of_le _ _ 4 hkl4.le]
        simp [hkl4]
      have hdp : (a ++ X.take (m - 4)).drop 4 = X.take (m - 4) := by
        rw [drop_append_of_le _ _ 4 hkl4.le]
        simp [hkl4]
      have hlen2 : (X.take (m - 4)).length = m - 4 := by
        rw [List.length_take]
        omega
      simp only [if_neg h4', htk, hdp, hkeyLen, hlen2, if_pos h5]
    · push_neg at h5
      -- truncation falls inside the value payload
      have hshape : X.take (m - 4) = kb ++ (ty :: (b ++ vb.take (m - 9 - kb.length))) := by
        rw [hX, take_append_of_le _ _ _ (by omega)]
        congr 1
        rw [show m - 4 - kb.length = (m - 5 - kb.length) + 1 from by omega,
          List.take_succ_cons]
        congr 1
        rw [take_append_of_le _ _ _ (by omega), hvl4]
        congr 2
        omega
      set w := vb.take (m - 9 - kb.length) with hw
      have hwlen : w.length = m - 9 - kb.length := by
        rw [hw, List.length_take]
        omega
      rw [hsplit, hshape, deserializeEntries.eq_def]
      have hll : (a ++ (kb ++ (ty :: (b ++ w)))).length = m := by
        simp only [List.length_append, List.length_cons, hkl4, hvl4, hwlen]
        omega
      have h4' : ¬((a ++ (kb ++ (ty :: (b ++ w)))).length < 4) := by omega
      have htk : (a ++ (kb ++ (ty :: (b ++ w)))).take 4 = a := by
        rw [take_append_of_le _ _ 4 hkl4.le]
        simp [hkl4]
      have hdp : (a ++ (kb ++ (ty :: (b ++ w)))).drop 4 = kb ++ (ty :: (b ++ w)) := by
        rw [drop_append_of_le _ _ 4 hkl4.le]
        simp [hkl4]
      have hl2 : ¬((kb ++ (ty :: (b ++ w))).length < kb.length + 5) := by
        simp only [List.length_append, List.length_cons, hvl4]
        omega
      have htkkb : (kb ++ (ty :: (b ++ w))).take kb.length = kb := by
        rw [take_append_of_le _ _ _ (le_refl _)]
        simp
      have hdpkb : (kb ++ (ty :: (b ++ w))).drop kb.length = ty :: (b ++ w) := by
        rw [drop_append_of_le _ _ _ (le_refl _)]
        simp
      have htkb : (b ++ w).take 4 = b := by
        rw [take_append_of_le _ _ 4 hvl4.le]
        simp [hvl4]
      have hdpb : (b ++ w).drop 4 = w := by
        rw [drop_append_of_le _ _ 4 hvl4.le]
        simp [hvl4]
      have hvalLen : leToNat b = vb.length :=
        leToNat_natToLE 4 vb.length (by norm_num; omega)
      have hwlt : w.length < vb.length := by omega
      simp only [if_neg h4', htk, hdp, hkeyLen, if_neg hl2, htkkb, hdpkb,
        List.headD_cons, List.drop_one, List.tail_cons, htkb, hdpb, hvalLen,
        if_pos hwlt]
      cases hdec : utf8Decode kb with
      | none => exact ⟨"key decode", rfl⟩
      | some key =>
        cases hty : valueTypeOfCode ty with
        | none => exact ⟨"unknown type code", rfl⟩
        | some vt => exact ⟨"Truncated value data", rfl⟩

theorem deserializeEntries_flatten_trunc (s : StoreEntries) :
    ∀ (acc : BinEntries) (j : Nat), (∀ e ∈ s, smallEntry e) →
    j < (flattenEntries s).length →
    ∃ msg, deserializeEntries s.length ((flattenEntries s).take j) acc =
      .error msg := by
  induction s with
  | nil => intro acc j _ hj; simp [flattenEntries] at hj
  | cons e rest ih =>
    intro acc j hsmall hj
    obtain ⟨hk, hv⟩ := hsmall e (List.mem_cons_self e rest)
    have hflat : flattenEntries (e :: rest) =
        entryBytes e ++ flattenEntries rest := by
      simp [flattenEntries]
    have heblen : (entryBytes e).length =
        (utf8Encode e.1).length + e.2.dataBytes.length + 9 := entryBytes_length e
    rw [hflat] at hj ⊢
    simp only [List.length_append] at hj
    by_cases hj1 : j < (entryBytes e).length
    · rw [List.take_append_of_le_length (le_of_lt hj1)]
      have hform : entryBytes e = natToLE 4 (utf8Encode e.1).length ++
          ((utf8Encode e.1) ++ (e.2.vtype.code ::
            (natToLE 4 e.2.dataBytes.length ++ e.2.dataBytes))) := by
        simp [entryBytes]
      rw [hform]
      have := deserializeEntries_trunc_entry (utf8Encode e.1) e.2.dataBytes
        e.2.vtype.code rest.length acc j hk hv (by omega)
      simpa using this
    · push_neg at hj1
      rw [take_append_of_le _ _ _ hj1]
      set X := (flattenEntries rest).take (j - (entryBytes e).length) with hXdef
      have hform : entryBytes e ++ X = natToLE 4 (utf8Encode e.1).length ++
          ((utf8Encode e.1) ++ (e.2.vtype.code ::
            (natToLE 4 e.2.dataBytes.length ++ (e.2.dataBytes ++ X)))) := by
        simp [entryBytes]
      rw [hform]
      have hstep := deserializeEntries_step (utf8Encode e.1) e.2.dataBytes X
        e.2.vtype.code rest.length acc hk hv
      rw [show rest.length + 1 = (e :: rest).length from by simp] at hstep
      rw [hstep]
      cases hdec : utf8Decode (utf8Encode e.1) with
      | none => exact ⟨"key decode", rfl⟩
      | some key =>
        cases hty : valueTypeOfCode e.2.vtype.code with
        | none => exact ⟨"unknown type code", rfl⟩
        | some vt =>
          have hrec := ih (match createValueFromBinary key vt e.2.dataBytes with
            | some v => if v.pyTruthy then dictInsert acc key v else acc
            | none => acc) (j - (entryBytes e).length)
            (fun e' he' => hsmall e' (List.mem_cons_of_mem _ he'))
            (by omega)
          rw [← hXdef] at hrec
          exact hrec

/-- C4's truncation half, universally: removing any nonzero number of
trailing bytes from any store's binary serialization makes
`deserialize_binary` raise. -/
theorem serializeBinary_truncation (s : StoreEntries)
    (hsmall : ∀ e ∈ s, smallEntry e) (hc : s.length < 2 ^ 32)
    (m : Nat) (hm : m < (serializeBinary s).length) :
    ∃ msg, deserializeBinary ((serializeBinary s).take m) = .error msg := by
  have hser : serializeBinary s =
      BINARY_VERSION :: (natToLE 4 s.length ++ flattenEntries s) := rfl
  have hcnt4 : (natToLE 4 s.length).length = 4 := natToLE_length 4 _
  have htot : (serializeBinary s).length = 5 + (flattenEntries s).length := by
    rw [hser]
    simp [hcnt4]
    omega
  by_cases hm5 : m < 5
  · refine ⟨"Invalid data: too small", ?_⟩
    have hlen : ((serializeBinary s).take m).length = m := by
      rw [List.length_take]
      omega
    rw [deserializeBinary.eq_def]
    simp only [hlen, if_pos hm5]
  · push_neg at hm5
    have hsplit : (serializeBinary s).take m = BINARY_VERSION ::
        (natToLE 4 s.length ++ (flattenEntries s).take (m - 5)) := by
      rw [hser, show m = (m - 1) + 1 from by omega, List.take_succ_cons,
        take_append_of_le _ _ _ (by omega), hcnt4]
      congr 2
    rw [hsplit, deserializeBinary.eq_def]
    have hlen : (BINARY_VERSION ::
        (natToLE 4 s.length ++ (flattenEntries s).take (m - 5))).length =
        m := by
      simp only [List.length_cons, List.length_append, hcnt4, List.length_take]
      omega
    have hcount : leToNat ((natToLE 4 s.length ++
        (flattenEntries s).take (m - 5)).take 4) = s.length := by
      rw [take_append_of_le _ _ 4 hcnt4.le]
      simp only [hcnt4, Nat.sub_self, List.take_zero, List.append_nil]
      exact leToNat_natToLE 4 s.length (by norm_num; omega)
    have hdrop : (natToLE 4 s.length ++
        (flattenEntries s).take (m - 5)).drop 4 =
        (flattenEntries s).take (m - 5) := by
      rw [drop_append_of_le _ _ 4 hcnt4.le]
      simp [hcnt4]
    simp only [hlen, if_neg (by omega : ¬(m < 5)), if_neg (by simp :
      ¬(BINARY_VERSION ≠ BINARY_VERSION)), hcount, hdrop]
    exact deserializeEntries_flatten_trunc s [] (m - 5) hsmall (by omega)

theorem valueTypeOfCode_code (t : ValueTypes) :
    valueTypeOfCode t.code = some t := by
  cases t <;> rfl

theorem pyTruthy_withName (v : Value) (k : List Char) :
    (v.withName k).pyTruthy = v.pyTruthy := by
  cases v <;> rfl

theorem unpack_pack_signed_eq (w : Nat) (hw : 0 < w) (v : Int)
    (bs : List Nat) (h : packSigned w v = some bs) :
    unpackSigned w bs = some v := by
  rw [packSigned] at h
  split at h
  case isTrue hr =>
    obtain ⟨bs', hp, hu⟩ := unpackSigned_packSigned w hw v hr.1 hr.2
    rw [packSigned, if_pos hr] at hp
    simp only [Option.some.injEq] at h hp
    have hbs : bs = bs' := by rw [← h, ← hp]
    rw [hbs]
    exact hu
  case isFalse => exact absurd h (by simp)

theorem unpack_pack_unsigned_eq (w : Nat) (v : Int) (bs : List Nat)
    (h : packUnsigned w v = some bs) : unpackUnsigned w bs = some v := by
  rw [packUnsigned] at h
  split at h
  case isTrue hr =>
    obtain ⟨bs', hp, hu⟩ := unpackUnsigned_packUnsigned w v hr.1 hr.2
    rw [packUnsigned, if_pos hr] at hp
    simp only [Option.some.injEq] at h hp
    have hbs : bs = bs' := by rw [← h, ← hp]
    rw [hbs]
    exact hu
  case isFalse => exact absurd h (by simp)

theorem unpack_pack_eq (kk : IntKind) (v : Int) (bs : List Nat)
    (h : kk.pack v = some bs) : kk.unpack bs = some v := by
  cases kk with
  | short => exact unpack_pack_signed_eq 2 (by norm_num) v bs h
  | ushort => exact unpack_pack_unsigned_eq 2 v bs h
  | intk => exact unpack_pack_signed_eq 4 (by norm_num) v bs h
  | uintk => exact unpack_pack_unsigned_eq 4 v bs h
  | long => exact unpack_pack_signed_eq 4 (by norm_num) v bs h
  | ulong => exact unpack_pack_unsigned_eq 4 v bs h
  | llong => exact unpack_pack_signed_eq 8 (by norm_num) v bs h
  | ullong => exact unpack_pack_unsigned_eq 8 v bs h

theorem createValueFromBinary_dataBytes (k : List Char) (v : Value)
    (h : wfBinaryValue v) :
    createValueFromBinary k v.vtype v.dataBytes =
      some (.core (v.withName k)) := by
  cases v with
  | vBool n b =>
    cases b <;> rfl
  | vNum n kk vv =>
    simp only [wfBinaryValue, Option.isSome_iff_exists] at h
    obtain ⟨bs, hpack⟩ := h
    have hdata : Value.dataBytes (.vNum n kk vv) = bs := by
      simp [Value.dataBytes, hpack]
    have hunpack := unpack_pack_eq kk vv bs hpack
    have hmk : mkNum kk k vv = some (.vNum k kk vv) := by
      simp [mkNum, hpack]
    have hnum : numFromData kk k bs = some (.vNum k kk vv) := by
      simp [numFromData, hunpack, hmk]
    rw [hdata]
    cases kk <;> simpa [createValueFromBinary, Value.vtype, IntKind.vtype,
      Value.withName] using hnum
  | vStr n s =>
    simp [createValueFromBinary, Value.vtype, Value.dataBytes,
      utf8Decode_encode, Value.withName]
  | vBytes n d =>
    rfl
  | vNull n => exact absurd h (by simp [wfBinaryValue])
  | vContainer n us => exact absurd h (by simp [wfBinaryValue])
  | vArray n vs => exact absurd h (by simp [wfBinaryValue])

theorem deserializeEntries_flatten_ok (s : StoreEntries) :
    ∀ (acc : BinEntries),
    (∀ e ∈ s, smallEntry e ∧ wfBinaryValue e.2 ∧ e.2.pyTruthy = true) →
    (s.map Prod.fst).Nodup →
    (∀ e ∈ s, ∀ a ∈ acc, a.1 ≠ e.1) →
    deserializeEntries s.length (flattenEntries s) acc =
      .ok (acc ++ s.map (fun e => (e.1, BinValue.core (e.2.withName e.1)))) := by
  induction s with
  | nil => intro acc _ _ _; simp [flattenEntries, deserializeEntries]
  | cons e rest ih =>
    intro acc hwf hnodup hdisj
    obtain ⟨⟨hk, hv⟩, hwfv, htruthy⟩ := hwf e (List.mem_cons_self e rest)
    have hform : flattenEntries (e :: rest) =
        natToLE 4 (utf8Encode e.1).length ++ ((utf8Encode e.1) ++
          (e.2.vtype.code :: (natToLE 4 e.2.dataBytes.length ++
            (e.2.dataBytes ++ flattenEntries rest)))) := by
      simp [flattenEntries, entryBytes]
    rw [hform, show (e :: rest).length = rest.length + 1 from rfl,
      deserializeEntries_step _ _ _ _ _ _ hk hv, utf8Decode_encode,
      valueTypeOfCode_code]
    simp only []
    rw [createValueFromBinary_dataBytes e.1 e.2 hwfv]
    simp only [BinValue.pyTruthy]
    simp only [pyTruthy_withName, htruthy]
    have hmapcons : List.map Prod.fst (e :: rest) =
        e.1 :: List.map Prod.fst rest := rfl
    rw [hmapcons] at hnodup
    obtain ⟨hhead, htail⟩ := List.nodup_cons.mp hnodup
    have hkfresh : acc.any (fun a => a.1 = e.1) = false := by
      simp only [List.any_eq_false]
      intro a ha
      have h := hdisj e (List.mem_cons_self e rest) a ha
      simpa using h
    have hne : ¬(acc.any (fun a => a.1 = e.1) = true) := by
      rw [hkfresh]
      simp
    have hinsert : dictInsert acc e.1 (.core (e.2.withName e.1)) =
        acc ++ [(e.1, .core (e.2.withName e.1))] := by
      rw [dictInsert, if_neg hne]
    rw [if_pos trivial, hinsert]
    have hdisj2 : ∀ e' ∈ rest,
        ∀ a ∈ acc ++ [(e.1, BinValue.core (e.2.withName e.1))],
        a.1 ≠ e'.1 := by
      intro e' he' a ha
      rcases List.mem_append.mp ha with hin | hin
      · exact hdisj e' (List.mem_cons_of_mem _ he') a hin
      · have ha2 : a = (e.1, BinValue.core (e.2.withName e.1)) := by
          simpa using hin
        subst ha2
        intro hcontra
        apply hhead
        simp only at hcontra
        rw [hcontra]
        exact List.mem_map_of_mem Prod.fst he'
    rw [ih (acc ++ [(e.1, BinValue.core (e.2.withName e.1))])
      (fun e' he' => hwf e' (List.mem_cons_of_mem _ he')) htail hdisj2]
    simp

theorem storeBinary_roundtrip (s : StoreEntries)
    (hwf : ∀ e ∈ s, smallEntry e ∧ wfBinaryValue e.2 ∧ e.2.pyTruthy = true)
    (hnodup : (s.map Prod.fst).Nodup) (hc : s.length < 2 ^ 32) :
    deserializeBinary (serializeBinary s) =
      .ok (s.map (fun e => (e.1, BinValue.core (e.2.withName e.1)))) := by
  have hser : serializeBinary s =
      BINARY_VERSION :: (natToLE 4 s.length ++ flattenEntries s) := rfl
  have hcnt4 : (natToLE 4 s.length).length = 4 := natToLE_length 4 _
  rw [hser, deserializeBinary.eq_def]
  have hlen : ¬((BINARY_VERSION ::
      (natToLE 4 s.length ++ flattenEntries s)).length < 5) := by
    simp [hcnt4]
  rw [if_neg hlen]
  simp only []
  rw [if_neg (by simp)]
  have hcount : leToNat ((natToLE 4 s.length ++ flattenEntries s).take 4) =
      s.length := by
    rw [take_append_of_le _ _ 4 hcnt4.le]
    simp only [hcnt4, Nat.sub_self, List.take_zero, List.append_nil]
    exact leToNat_natToLE 4 s.length (by norm_num; omega)
  have hdrop : (natToLE 4 s.length ++ flattenEntries s).drop 4 =
      flattenEntries s := by
    rw [drop_append_of_le _ _ 4 hcnt4.le]
    simp [hcnt4]
  rw [hcount, hdrop, deserializeEntries_flatten_ok s [] hwf hnodup
    (by intro e _ a ha; simp at ha)]
  simp

/-- C4 (amended): the binary `ValueStore` codec round-trips the
specification's example store, and more generally every store whose
values are truthy reconstructible scalars (bool, fixed-width integer,
string, bytes — names reassigned to the store keys on decode); a
FLOAT-tagged entry is reconstructed by `FloatValue.from_data` and kept
(a decoded float is always truthy), here on a hand-laid-out buffer
holding one 4-byte float under key `a`; and truncating the serialized
buffer of *any* store by any nonzero number of trailing bytes makes
`deserialize_binary` raise a decode error rather than return a partial
store. -/
theorem store_binary_roundtrip_and_truncation :
    (deserializeBinary (serializeBinary
        [("a".data, Value.vNum "a".data .intk 1),
         ("b".data, Value.vStr "b".data "x".data)]) =
      .ok [("a".data, .core (Value.vNum "a".data .intk 1)),
           ("b".data, .core (Value.vStr "b".data "x".data))] ∧
     toInt (Value.vNum "a".data .intk 1) = .ok 1) ∧
    deserializeBinary
        [1, 1, 0, 0, 0, 1, 0, 0, 0, 97, 10, 4, 0, 0, 0, 0, 0, 128, 63] =
      .ok [("a".data, BinValue.float "a".data false [0, 0, 128, 63])] ∧
    (∀ s : StoreEntries,
      (∀ e ∈ s, smallEntry e ∧ wfBinaryValue e.2 ∧ e.2.pyTruthy = true) →
      (s.map Prod.fst).Nodup → s.length < 2 ^ 32 →
      deserializeBinary (serializeBinary s) =
        .ok (s.map (fun e => (e.1, BinValue.core (e.2.withName e.1))))) ∧
    (∀ s : StoreEntries, (∀ e ∈ s, smallEntry e) → s.length < 2 ^ 32 →
      ∀ m, m < (serializeBinary s).length →
      ∃ msg, deserializeBinary ((serializeBinary s).take m) = .error msg) :=
  ⟨⟨rfl, rfl⟩, rfl, storeBinary_roundtrip, serializeBinary_truncation⟩

/-- Witness for C4 (amended) at the example store: the general
round-trip theorem instantiates to it, and truncating its 30-byte buffer
to 29 bytes raises. -/
theorem store_binary_roundtrip_and_truncation_witness :
    deserializeBinary (serializeBinary
        [("a".data, Value.vNum "a".data .intk 1),
         ("b".data, Value.vStr "b".data "x".data)]) =
      .ok [("a".data, .core (Value.vNum "a".data .intk 1)),
           ("b".data, .core (Value.vStr "b".data "x".data))] ∧
    (∃ msg, deserializeBinary ((serializeBinary
        [("a".data, Value.vNum "a".data .intk 1),
         ("b".data, Value.vStr "b".data "x".data)]).take 29) =
      .error msg) := by
  constructor
  · have h := store_binary_roundtrip_and_truncation.2.2.1
      [("a".data, Value.vNum "a".data .intk 1),
       ("b".data, Value.vStr "b".data "x".data)]
      (by
        intro e he
        rcases List.mem_cons.mp he with rfl | he2
        · exact ⟨⟨by decide, by decide⟩, by rfl, by rfl⟩
        rcases List.mem_cons.mp he2 with rfl | he3
        · exact ⟨⟨by decide, by decide⟩, trivial, by rfl⟩
        · exact absurd he3 (by simp))
      (by decide) (by decide)
    exact h.trans (by rfl)
  · exact store_binary_roundtrip_and_truncation.2.2.2
      [("a".data, Value.vNum "a".data .intk 1),
       ("b".data, Value.vStr "b".data "x".data)]
      (by
        intro e he
        rcases List.mem_cons.mp he with rfl | he2
        · exact ⟨by decide, by decide⟩
        rcases List.mem_cons.mp he2 with rfl | he3
        · exact ⟨by decide, by decide⟩
        · exact absurd he3 (by simp))
      (by decide) 29 (by decide)

end ContainerSys
namespace ContainerSys

theorem natDigitsRev_lt_ten (fuel n : Nat) : ∀ d ∈ natDigitsRev fuel n, d < 10 := by
  induction fuel generalizing n with
  | zero => simp [natDigitsRev]
  | succ f ih =>
    intro d hd
    rcases n with _ | n
    · simp [natDigitsRev] at hd
    · rw [show natDigitsRev (f + 1) (n + 1) =
          (n + 1) % 10 :: natDigitsRev f ((n + 1) / 10) from rfl] at hd
      rcases List.mem_cons.mp hd with rfl | hd2
      · omega
      · exact ih _ d hd2

theorem ofRevDigits_natDigitsRev (fuel n : Nat) (h : n < fuel) :
    ofRevDigits (natDigitsRev fuel n) = n := by
  induction fuel generalizing n with
  | zero => omega
  | succ f ih =>
    rcases n with _ | n
    · simp [natDigitsRev, ofRevDigits]
    · rw [show natDigitsRev (f + 1) (n + 1) =
          (n + 1) % 10 :: natDigitsRev f ((n + 1) / 10) from rfl, ofRevDigits,
        ih ((n + 1) / 10) (by omega)]
      omega

theorem digitChr_toNat (d : Nat) (h : d < 10) : (digitChr d).toNat = 48 + d := by
  rw [digitChr]
  exact char_ofNat_toNat_eq (48 + d) (by left; omega)

theorem decValue_revmap (l : List Nat) (a : Nat) (h : ∀ d ∈ l, d < 10) :
    (l.map digitChr).reverse.foldl (fun a c => a * 10 + (c.toNat - 48)) a =
      a * 10 ^ l.length + ofRevDigits l := by
  induction l generalizing a with
  | nil => simp [ofRevDigits]
  | cons d t ih =>
    simp only [List.map_cons, List.reverse_cons, List.foldl_append,
      List.foldl_cons, List.foldl_nil]
    rw [ih a (fun d hd => h d (List.mem_cons_of_mem _ hd)),
      digitChr_toNat d (h d (List.mem_cons_self d t))]
    simp only [ofRevDigits, List.length_cons]
    ring_nf
    omega

theorem decValue_natToChars (n : Nat) : decValue (natToChars n) = n := by
  rcases Nat.eq_zero_or_pos n with rfl | hn
  · rfl
  · rw [natToChars, if_neg (by omega), decValue, decValue_revmap _ 0
      (natDigitsRev_lt_ten (n + 1) n), ofRevDigits_natDigitsRev (n + 1) n
      (by omega)]
    simp

theorem natToChars_digits (n : Nat) :
    ∀ c ∈ natToChars n, 48 ≤ c.toNat ∧ c.toNat ≤ 57 := by
  rcases Nat.eq_zero_or_pos n with rfl | hn
  · intro c hc
    simp [natToChars] at hc
    subst hc
    decide
  · rw [natToChars, if_neg (by omega)]
    intro c hc
    rw [List.mem_reverse] at hc
    obtain ⟨d, hd, rfl⟩ := List.mem_map.mp hc
    have := natDigitsRev_lt_ten (n + 1) n d hd
    rw [digitChr_toNat d this]
    omega

theorem natToChars_ne_nil (n : Nat) : natToChars n ≠ [] := by
  rcases Nat.eq_zero_or_pos n with rfl | hn
  · simp [natToChars]
  · rw [natToChars, if_neg (by omega)]
    rw [show natDigitsRev (n + 1) n = n % 10 :: natDigitsRev n (n / 10) from by
      rcases n with _ | m
      · omega
      · rfl]
    simp

theorem digit_not_space (c : Char) (h : 48 ≤ c.toNat ∧ c.toNat ≤ 57) :
    pySpace c = false := by
  simp only [pySpace, decide_eq_false_iff_not, not_or]
  omega

theorem dropWhile_pySpace_of_digits (l : List Char)
    (h : ∀ c ∈ l, pySpace c = false) : l.dropWhile pySpace = l := by
  cases l with
  | nil => rfl
  | cons c t =>
    rw [List.dropWhile_cons, h c (List.mem_cons_self c t)]
    simp

/-- `int(str(v)) == v`. -/
theorem pyParseInt_intToChars (v : Int) : pyParseInt (intToChars v) = some v := by
  have hstrip : ∀ l : List Char, (∀ c ∈ l, pySpace c = false) →
      ((l.dropWhile pySpace).reverse.dropWhile pySpace).reverse = l := by
    intro l hl
    rw [dropWhile_pySpace_of_digits l hl, dropWhile_pySpace_of_digits _
      (fun c hc => hl c (List.mem_reverse.mp hc)), List.reverse_reverse]
  have hcore : ∀ n : Nat, (if natToChars n ≠ [] ∧
      (natToChars n).all (fun c => 48 ≤ c.toNat ∧ c.toNat ≤ 57) then
      some ((decValue (natToChars n) : Int)) else none) = some ((n : Nat) : Int) := by
    intro n
    rw [if_pos ⟨natToChars_ne_nil n, by
      rw [List.all_eq_true]
      intro c hc
      have := natToChars_digits n c hc
      simp only [decide_eq_true_eq]
      omega⟩, decValue_natToChars]
  rcases lt_or_le v 0 with hv | hv
  · have hds : ∀ c ∈ '-' :: natToChars v.natAbs, pySpace c = false := by
      intro c hc
      rcases List.mem_cons.mp hc with rfl | hc2
      · decide
      · exact digit_not_space c (natToChars_digits _ c hc2)
    rw [intToChars, if_pos hv]
    simp only [pyParseInt]
    rw [hstrip _ hds]
    split
    case _ ds heq =>
      injection heq with h1 h2
      subst h2
      rw [hcore v.natAbs]
      show some (-(v.natAbs : Int)) = some v
      congr 1
      omega
    case _ ds heq =>
      injection heq with h1 h2
      exact absurd h1 (by decide)
    case _ h1 h2 =>
      exact (h1 (natToChars v.natAbs) rfl).elim
  · have hnn : v.toNat = v := Int.toNat_of_nonneg hv
    have hds : ∀ c ∈ natToChars v.toNat, pySpace c = false :=
      fun c hc => digit_not_space c (natToChars_digits _ c hc)
    rw [intToChars, if_neg (by omega)]
    simp only [pyParseInt]
    rw [hstrip _ hds]
    rcases hl : natToChars v.toNat with _ | ⟨c, t⟩
    · exact absurd hl (natToChars_ne_nil _)
    · have hcdig := natToChars_digits v.toNat c (hl ▸ List.mem_cons_self c t)
      have hcm : c ≠ '-' := by
        intro hcon
        subst hcon
        revert hcdig
        decide
      have hcp : c ≠ '+' := by
        intro hcon
        subst hcon
        revert hcdig
        decide
      split
      case _ ds heq =>
        injection heq with h1 h2
        exact absurd h1 hcm
      case _ ds heq =>
        injection heq with h1 h2
        exact absurd h1 hcp
      case _ =>
        rw [← hl]
        have h2 := hcore v.toNat
        rw [h2, hnn]

/-! ## The escape layer (`];` to `\];` to the deserializer token) -/

theorem escapeBrackets_singleton (c : Char) : escapeBrackets [c] = [c] := by
  rw [escapeBrackets.eq_def]
  split
  case _ t heq =>
    injection heq with e1 e2
    exact absurd e2 (by simp)
  case _ c2 t heq =>
    injection heq with e1 e2
    rw [← e1, ← e2]
    rfl
  case _ heq => exact absurd heq (List.cons_ne_nil _ _)

theorem tokStr_singleton (c : Char) : tokStr [c] = [c] := by
  rw [tokStr.eq_def]
  split
  case _ t heq =>
    injection heq with e1 e2
    exact absurd e2 (by simp)
  case _ c2 t heq =>
    injection heq with e1 e2
    rw [← e1, ← e2]
    rfl
  case _ heq => exact absurd heq (List.cons_ne_nil _ _)

theorem replaceEscToken_cons_ne (c : Char) (h : c ≠ '\\') (l : List Char) :
    replaceEscToken (c :: l) = c :: replaceEscToken l := by
  rw [replaceEscToken.eq_def]
  split
  case _ t heq =>
    injection heq with e1 _
    exact absurd e1 h
  case _ c2 t heq =>
    injection heq with e1 e2
    rw [← e1, ← e2]
  case _ heq => exact absurd heq (List.cons_ne_nil _ _)

theorem escapeBrackets_cons_ne {c1 c2 : Char} {t : List Char}
    (h : ¬(c1 = ']' ∧ c2 = ';')) :
    escapeBrackets (c1 :: c2 :: t) = c1 :: escapeBrackets (c2 :: t) := by
  rw [escapeBrackets.eq_def]
  split
  case _ t2 heq =>
    injection heq with e1 e2
    injection e2 with e2 _
    exact absurd ⟨e1, e2⟩ h
  case _ c3 t3 heq =>
    injection heq with e1 e2
    rw [← e1, ← e2]
  case _ heq => exact absurd heq (List.cons_ne_nil _ _)

theorem tokStr_cons_ne {c1 c2 : Char} {t : List Char}
    (h : ¬(c1 = ']' ∧ c2 = ';')) :
    tokStr (c1 :: c2 :: t) = c1 :: tokStr (c2 :: t) := by
  rw [tokStr.eq_def]
  split
  case _ t2 heq =>
    injection heq with e1 e2
    injection e2 with e2 _
    exact absurd ⟨e1, e2⟩ h
  case _ c3 t3 heq =>
    injection heq with e1 e2
    rw [← e1, ← e2]
  case _ heq => exact absurd heq (List.cons_ne_nil _ _)

theorem restoreTokenF_nil (fuel : Nat) : restoreTokenF fuel [] = [] := by
  cases fuel <;> rfl

theorem restoreTokenF_cons_ne (c : Char) (h : c ≠ '_') (l : List Char)
    (fuel : Nat) :
    restoreTokenF (fuel + 1) (c :: l) = c :: restoreTokenF fuel l := by
  simp only [restoreTokenF]
  rw [show dropLit "__ESCAPED_SEMICOLON_BRACKET__".data (c :: l) =
      (if c = '_' then dropLit "_ESCAPED_SEMICOLON_BRACKET__".data l else none)
      from rfl, if_neg h]

theorem restoreTokenF_token (fuel : Nat) (l : List Char) :
    restoreTokenF (fuel + 1) (escTokChars ++ l) =
      ']' :: ';' :: restoreTokenF fuel l := by
  simp only [restoreTokenF]
  rw [show dropLit "__ESCAPED_SEMICOLON_BRACKET__".data (escTokChars ++ l) =
      some l from rfl]

/-- On the wire, a value that ends with no backslash is followed by the
literal terminator `];`; token substitution maps the escaped body to
`tokStr` and leaves that terminator alone. -/
theorem replaceEscToken_frag : ∀ (s r : List Char), '\\' ∉ s →
    replaceEscToken (escapeBrackets s ++ ']' :: ';' :: r) =
      tokStr s ++ ']' :: ';' :: replaceEscToken r
  | [], _, _ => rfl
  | [c], r, h => by
    have hc : c ≠ '\\' := fun hm => h (List.mem_singleton.mpr hm.symm)
    rw [escapeBrackets_singleton c, List.singleton_append,
      replaceEscToken_cons_ne c hc, tokStr_singleton c, List.singleton_append]
    rfl
  | c1 :: c2 :: t, r, h => by
    by_cases hbr : c1 = ']' ∧ c2 = ';'
    · obtain ⟨rfl, rfl⟩ := hbr
      have ht : '\\' ∉ t := fun hm =>
        h (List.mem_cons_of_mem _ (List.mem_cons_of_mem _ hm))
      rw [show escapeBrackets (']' :: ';' :: t) ++ ']' :: ';' :: r =
          '\\' :: ']' :: ';' :: (escapeBrackets t ++ ']' :: ';' :: r) from rfl,
        show replaceEscToken
            ('\\' :: ']' :: ';' :: (escapeBrackets t ++ ']' :: ';' :: r)) =
          escTokChars ++ replaceEscToken (escapeBrackets t ++ ']' :: ';' :: r)
          from rfl,
        replaceEscToken_frag t r ht,
        show tokStr (']' :: ';' :: t) = escTokChars ++ tokStr t from rfl,
        List.append_assoc]
    · have hc1 : c1 ≠ '\\' := fun hm => h (by rw [← hm]; exact List.mem_cons_self _ _)
      have h2 : '\\' ∉ c2 :: t := fun hm => h (List.mem_cons_of_mem _ hm)
      rw [escapeBrackets_cons_ne hbr, List.cons_append,
        replaceEscToken_cons_ne c1 hc1, replaceEscToken_frag (c2 :: t) r h2,
        tokStr_cons_ne hbr, List.cons_append]

theorem hasSubstring_token_append (l : List Char) :
    hasSubstring "];".data (escTokChars ++ l) = hasSubstring "];".data l := rfl

theorem dropLit_brsemi_none (c : Char) (l : List Char) (h : c ≠ ']') :
    dropLit "];".data (c :: l) = none := by
  show (if c = ']' then dropLit [';'] l else none) = none
  exact if_neg h

theorem dropLit_semi_none (c : Char) (l : List Char) (h : c ≠ ';') :
    dropLit [';'] (c :: l) = none := by
  show (if c = ';' then dropLit [] l else none) = none
  exact if_neg h

theorem dropLit_semi_tokStr (c : Char) (t : List Char) (h : c ≠ ';') :
    dropLit [';'] (tokStr (c :: t)) = none := by
  cases t with
  | nil =>
    rw [tokStr_singleton c]
    exact dropLit_semi_none c [] h
  | cons c2 t2 =>
    by_cases hbr : c = ']' ∧ c2 = ';'
    · obtain ⟨rfl, rfl⟩ := hbr
      rfl
    · rw [tokStr_cons_ne hbr]
      exact dropLit_semi_none c _ h

/-- The token substitution leaves no `];` in the value body, so the item
scanner reads past the whole substituted value to the real terminator. -/
theorem hasSubstring_brsemi_tokStr : ∀ s : List Char,
    hasSubstring "];".data (tokStr s) = false
  | [] => rfl
  | [c] => by
    rw [tokStr_singleton c]
    by_cases hc : c = ']'
    · subst hc
      rfl
    · show ((dropLit "];".data [c]).isSome || hasSubstring "];".data []) = false
      rw [dropLit_brsemi_none c [] hc]
      rfl
  | c1 :: c2 :: t => by
    by_cases hbr : c1 = ']' ∧ c2 = ';'
    · obtain ⟨rfl, rfl⟩ := hbr
      rw [show tokStr (']' :: ';' :: t) = escTokChars ++ tokStr t from rfl,
        hasSubstring_token_append]
      exact hasSubstring_brsemi_tokStr t
    · rw [tokStr_cons_ne hbr]
      show ((dropLit "];".data (c1 :: tokStr (c2 :: t))).isSome ||
        hasSubstring "];".data (tokStr (c2 :: t))) = false
      rw [hasSubstring_brsemi_tokStr (c2 :: t), Bool.or_false]
      by_cases hc1 : c1 = ']'
      · subst hc1
        have hc2 : c2 ≠ ';' := fun hm => hbr ⟨rfl, hm⟩
        show (dropLit [';'] (tokStr (c2 :: t))).isSome = false
        rw [dropLit_semi_tokStr c2 t hc2]
        rfl
      · rw [dropLit_brsemi_none c1 _ hc1]
        rfl

/-- `restoreToken` inverts `tokStr` when the source text cannot spoof a
token (no underscore). -/
theorem restoreTokenF_tokStr : ∀ (s : List Char) (fuel : Nat),
    (tokStr s).length ≤ fuel → '_' ∉ s → restoreTokenF fuel (tokStr s) = s
  | [], fuel, _, _ => restoreTokenF_nil fuel
  | [c], fuel, hf, h => by
    have hc : c ≠ '_' := fun hm => h (List.mem_singleton.mpr hm.symm)
    rw [tokStr_singleton c] at hf ⊢
    cases fuel with
    | zero => simp at hf
    | succ f => rw [restoreTokenF_cons_ne c hc [] f, restoreTokenF_nil f]
  | c1 :: c2 :: t, fuel, hf, h => by
    by_cases hbr : c1 = ']' ∧ c2 = ';'
    · obtain ⟨rfl, rfl⟩ := hbr
      have ht : '_' ∉ t := fun hm =>
        h (List.mem_cons_of_mem _ (List.mem_cons_of_mem _ hm))
      rw [show tokStr (']' :: ';' :: t) = escTokChars ++ tokStr t from rfl]
        at hf ⊢
      rw [List.length_append, show escTokChars.length = 29 from rfl] at hf
      cases fuel with
      | zero => omega
      | succ f =>
        rw [restoreTokenF_token f (tokStr t),
          restoreTokenF_tokStr t f (by omega) ht]
    · have hc1 : c1 ≠ '_' := fun hm =>
        h (by rw [← hm]; exact List.mem_cons_self _ _)
      have h2 : '_' ∉ c2 :: t := fun hm => h (List.mem_cons_of_mem _ hm)
      rw [tokStr_cons_ne hbr] at hf ⊢
      rw [List.length_cons] at hf
      cases fuel with
      | zero => omega
      | succ f =>
        rw [restoreTokenF_cons_ne c1 hc1 _ f,
          restoreTokenF_tokStr (c2 :: t) f (by omega) h2]

theorem restoreToken_tokStr (s : List Char) (h : '_' ∉ s) :
    restoreToken (tokStr s) = s :=
  restoreTokenF_tokStr s (tokStr s).length le_rfl h

/-- C5 (amended): the claim fails as stated (see the counterexample for
the text `];};`), but the escaping layer itself is correct on strings
free of backslashes and underscores: on the wire, serialize-side
escaping followed by the deserializer token substitution turns the
escaped value body into `tokStr s` while leaving the `];` terminator
intact, the substituted body contains no `];` for the item scanner to
split on, and the final `replace` restores the original text exactly;
and the full container round-trip reproduces a string value containing
`];` (text `a];b`) unchanged. -/
theorem escaping_restores_delimiter :
    (∀ s r : List Char, '\\' ∉ s → '_' ∉ s →
      replaceEscToken (escapeBrackets s ++ ']' :: ';' :: r) =
          tokStr s ++ ']' :: ';' :: replaceEscToken r ∧
        hasSubstring "];".data (tokStr s) = false ∧
        restoreToken (tokStr s) = s) ∧
    hasSubstring "];".data "a];b".data = true ∧
    (ContainerState.init.deserialize
        ((ContainerState.init.add
          (.vStr "s".data "a];b".data)).serialize.1) false).1 = true ∧
    (ContainerState.init.deserialize
        ((ContainerState.init.add
          (.vStr "s".data "a];b".data)).serialize.1) false).2.units =
      [.vStr "s".data "a];b".data] :=
  ⟨fun s r h1 h2 => ⟨replaceEscToken_frag s r h1,
    hasSubstring_brsemi_tokStr s, restoreToken_tokStr s h2⟩, rfl, rfl, rfl⟩

theorem escaping_restores_delimiter_witness :
    ('\\' ∉ ("a];b".data : List Char)) ∧ ('_' ∉ ("a];b".data : List Char)) ∧
    (replaceEscToken (escapeBrackets "a];b".data ++ ']' :: ';' :: []) =
        tokStr "a];b".data ++ ']' :: ';' :: replaceEscToken [] ∧
      hasSubstring "];".data (tokStr "a];b".data) = false ∧
      restoreToken (tokStr "a];b".data) = "a];b".data) :=
  ⟨by decide, by decide,
    escaping_restores_delimiter.1 "a];b".data [] (by decide) (by decide)⟩

end ContainerSys
